import Mathlib

/-!
# koudaimiwa/osm: the Change codec and the streaming XML scanner

A shallow embedding of `change.go` (the protocol-buffer codec of a `Change`)
and of `osmxml/scanner.go` (the streaming `Scanner`), with the properties of
the two proved over it.

Conventions of the embedding:

* a Go pointer that may be nil is an `Option`; a Go `error` is an
  `Option Error` (`none` is the nil error);
* a Go function returning `(T, error)` returns a pair, so that "value and
  error are never both set" is a statement to prove and not a fact of the type;
* a run-time panic (nil dereference) is the `none` of an outer `Option`;
* functions of other packages (`proto.Marshal`, `encoding/xml`,
  `strings.ToLower`) and of files outside this development (`marshalOSM`,
  `unmarshalOSM`, `stringSet`) are fields of a structure that the embedded
  functions take as a parameter;
* the input of a scanner is a finite sequence of tokens followed by the error
  that `Token()` reports at its end, so that `Scan` is a total function; a
  cancellation of the context reaches the scanner between two calls of its
  methods (`Op.Cancel`), not in the middle of one.
-/

namespace Osm

/-! ## Errors -/

/-- A Go `error` value. The four named constructors are the sentinel errors the
two files compare against or produce; `other` stands for every other error
(xml syntax errors, I/O errors, proto errors, string-table errors). -/
inductive Error where
  | EOF
  | ErrScannerClosed
  | Canceled
  | DeadlineExceeded
  | other (msg : String)
  deriving DecidableEq, Repr

/-! ## change.go -/

/-- The struct `Change` of change.go: three partitions, each a `*OSM`. -/
structure Change (OSM : Type) where
  Create : Option OSM
  Modify : Option OSM
  Delete : Option OSM
  deriving DecidableEq, Repr

/-- The message `osmpb.Change`: the three encoded partitions and the string
table (`Strings`, a repeated string field). -/
structure PbChange (PbOSM : Type) where
  Create : Option PbOSM
  Modify : Option PbOSM
  Delete : Option PbOSM
  Strings : List String
  deriving DecidableEq, Repr

/-- The functions change.go calls and does not define.

* `newStringSet` is `&stringSet{}`, `Strings` is `(*stringSet).Strings`;
* `marshalOSM o ss includeChangeset` returns the encoded partition together
  with the string set after the call (the Go function mutates `ss`);
* `unmarshalOSM encoded ss cs` returns the Go pair `(*OSM, error)`;
* `protoMarshal` is `proto.Marshal` at `*osmpb.Change`, returning
  `([]byte, error)`;
* `protoUnmarshal data` is `proto.Unmarshal(data, pbf)` from an empty `pbf`:
  the message as left by the call, and the error. -/
structure Delegates (OSM PbOSM Changeset SS : Type) where
  newStringSet : SS
  Strings : SS → List String
  marshalOSM : Option OSM → SS → Bool → Option PbOSM × SS
  unmarshalOSM : Option PbOSM → List String → Option Changeset → Option OSM × Option Error
  protoMarshal : PbChange PbOSM → List UInt8 × Option Error
  protoUnmarshal : List UInt8 → PbChange PbOSM × Option Error

section ChangeCodec

variable {OSM PbOSM Changeset SS : Type}

/-- The function `marshalChange` of change.go. The three calls of `marshalOSM`
run in field order on the same `ss`; the message is built with `Strings`
unset. Returns the message (nil for a nil `c`) and the string set after the
call. -/
def marshalChange (D : Delegates OSM PbOSM Changeset SS) (c : Option (Change OSM)) (ss : SS)
    (includeChangeset : Bool) : Option (PbChange PbOSM) × SS :=
  match c with
  | none => (none, ss)
  | some c =>
    let r1 := D.marshalOSM c.Create ss includeChangeset
    let r2 := D.marshalOSM c.Modify r1.2 includeChangeset
    let r3 := D.marshalOSM c.Delete r2.2 includeChangeset
    (some { Create := r1.1, Modify := r2.1, Delete := r3.1, Strings := [] }, r3.2)

/-- The method `(*Change).Marshal` of change.go. The outer `none` is the panic
of `encoded.Strings = ...` on a nil `encoded`. -/
def Change.Marshal (D : Delegates OSM PbOSM Changeset SS) (c : Option (Change OSM)) :
    Option (List UInt8 × Option Error) :=
  let ss := D.newStringSet
  let r := marshalChange D c ss true
  match r.1 with
  | none => none
  | some encoded =>
    let encoded := { encoded with Strings := D.Strings r.2 }
    some (D.protoMarshal encoded)

/-- The getter `(*osmpb.Change).GetStrings`. -/
def PbChange.GetStrings (m : Option (PbChange PbOSM)) : List String :=
  match m with
  | none => []
  | some m => m.Strings

/-- The function `unmarshalChange` of change.go. -/
def unmarshalChange (D : Delegates OSM PbOSM Changeset SS) (encoded : PbChange PbOSM)
    (ss : List String) (cs : Option Changeset) : Option (Change OSM) × Option Error :=
  let r1 := D.unmarshalOSM encoded.Create ss cs
  if r1.2 ≠ none then (none, r1.2) else
  let r2 := D.unmarshalOSM encoded.Modify ss cs
  if r2.2 ≠ none then (none, r2.2) else
  let r3 := D.unmarshalOSM encoded.Delete ss cs
  if r3.2 ≠ none then (none, r3.2) else
  (some { Create := r1.1, Modify := r2.1, Delete := r3.1 }, none)

/-- The function `UnmarshalChange` of change.go. -/
def UnmarshalChange (D : Delegates OSM PbOSM Changeset SS) (data : List UInt8) :
    Option (Change OSM) × Option Error :=
  let r := D.protoUnmarshal data
  if r.2 ≠ none then (none, r.2) else
  unmarshalChange D r.1 (PbChange.GetStrings (some r.1)) none

/-- The delegates `D` with `u` in place of `unmarshalOSM`. -/
def Delegates.withUnmarshalOSM {OSM PbOSM Changeset SS : Type}
    (D : Delegates OSM PbOSM Changeset SS)
    (u : Option PbOSM → List String → Option Changeset → Option OSM × Option Error) :
    Delegates OSM PbOSM Changeset SS :=
  { D with unmarshalOSM := u }

end ChangeCodec

/-! ## osmxml/scanner.go -/

/-- The seven types that implement `osm.Object` and that `Scan` can produce. -/
inductive Kind where
  | Bounds
  | Node
  | Way
  | Relation
  | Changeset
  | Note
  | User
  deriving DecidableEq, Repr

/-- The struct `xml.Name`. -/
structure Name where
  Space : String
  Local : String
  deriving DecidableEq, Repr

/-- The struct `xml.Attr`. -/
structure Attr where
  Name : Name
  Value : String
  deriving DecidableEq, Repr

/-- The struct `xml.StartElement`. -/
structure StartElement where
  Name : Name
  Attr : List Attr
  deriving DecidableEq, Repr

/-- The interface `xml.Token`: the six token types of encoding/xml. -/
inductive Token where
  | StartElement (se : StartElement)
  | EndElement (name : Name)
  | CharData (data : String)
  | Comment (data : String)
  | ProcInst (target : String) (inst : String)
  | Directive (data : String)
  deriving DecidableEq, Repr

/-- The type assertion `se, ok := t.(xml.StartElement)`; `none` is `ok = false`. -/
def Token.asStart : Token → Option Osm.StartElement
  | .StartElement se => some se
  | _ => none

/-- The state of an `*xml.Decoder` over a finite input: the tokens `Token()`
has yet to return, and the error it returns once they are used up (`io.EOF` at
a clean end of input, a syntax or I/O error where the input is malformed or the
read fails). -/
structure Decoder where
  toks : List Token
  fin : Error
  deriving DecidableEq, Repr

/-- The method `(*xml.Decoder).Token`: the Go pair `(Token, error)` and the
decoder after the call. -/
def Decoder.Token (d : Decoder) : (Option Token × Option Error) × Decoder :=
  match d.toks with
  | [] => ((none, some d.fin), d)
  | t :: ts => ((some t, none), { d with toks := ts })

/-- An `osm.Object`: a value of one of the seven types. The types themselves
(`osm.Bounds`, `osm.Node`, ...) are declared outside this development and are
the family `V`. -/
structure Object (V : Kind → Type) where
  kind : Kind
  val : V kind

/-- The library functions scanner.go calls.

* `ToLower` is `strings.ToLower`;
* `DecodeElement k se d` is `d.DecodeElement(&v, &se)` for `v` a pointer to a
  zero value of the type of kind `k`, called on the decoder state `d` reached
  after `se` has been returned by `Token()`: the value left in `v`, the error,
  and how many of the remaining tokens the call has consumed. -/
structure Xml (V : Kind → Type) where
  ToLower : String → String
  DecodeElement : (k : Kind) → StartElement → Decoder → V k × Option Error × Nat

/-- The `switch` of `Scan` over the lower-cased local name: the kind decoded
for each `case`, `none` for `default`. -/
def kindOf (lowered : String) : Option Kind :=
  if lowered = "bounds" then some .Bounds
  else if lowered = "node" then some .Node
  else if lowered = "way" then some .Way
  else if lowered = "relation" then some .Relation
  else if lowered = "changeset" then some .Changeset
  else if lowered = "note" then some .Note
  else if lowered = "user" then some .User
  else none

/-- A `context.Context`, as far as the scanner looks at it: the value `Err()`
returns (nil until the context is cancelled, and the same error ever after). -/
structure Context where
  err : Option Error
  deriving DecidableEq, Repr

/-- The method `Context.Err`. -/
def Context.Err (c : Context) : Option Error := c.err

/-- The context `context.Background()`: never cancelled. -/
def Context.Background : Context := { err := none }

/-- The child of `context.WithCancel(parent)`: already cancelled, with the
parent's error, when the parent is. -/
def Context.WithCancel (parent : Context) : Context := { err := parent.err }

/-- A cancellation reaching the context with error `e`: the first one sets
`Err()`, later ones change nothing. -/
def Context.cancelWith (c : Context) (e : Error) : Context :=
  match c.err with
  | none => { err := some e }
  | some _ => c

/-- The `context.CancelFunc` returned by `WithCancel`. -/
def Context.done (c : Context) : Context := c.cancelWith .Canceled

/-- The struct `Scanner` of scanner.go. The field `done` is `Context.done`
applied to `ctx`. -/
structure Scanner (V : Kind → Type) where
  ctx : Context
  closed : Bool
  decoder : Decoder
  next : Option (Object V)
  err : Option Error

section ScannerOps

variable {V : Kind → Type}

/-- The function `New` of scanner.go; `r` is the decoder `xml.NewDecoder(r)`
and a nil `ctx` is `none`. -/
def New (ctx : Option Context) (r : Decoder) : Scanner V :=
  let ctx := match ctx with
    | none => Context.Background
    | some c => c
  { ctx := Context.WithCancel ctx, closed := false, decoder := r, next := none, err := none }

/-- The method `(*Scanner).Close`: the returned error and the scanner after. -/
def Scanner.Close (s : Scanner V) : Option Error × Scanner V :=
  (none, { s with closed := true, ctx := s.ctx.done })

/-- The `for` loop of `Scan`, by recursion on the decoder's remaining tokens
(the first argument, which is `s.decoder.toks`). Each iteration checks the
context, pulls one token, and either goes on (`continue`) or returns. -/
def Scanner.scanLoop (X : Xml V) : List Token → Scanner V → Bool × Scanner V
  | [], s =>
    if s.ctx.Err ≠ none then (false, s)
    else (false, { s with err := some s.decoder.fin })
  | t :: ts, s =>
    if s.ctx.Err ≠ none then (false, s)
    else
      let s := { s with decoder := { s.decoder with toks := ts } }
      match t.asStart with
      | none => Scanner.scanLoop X ts s
      | some se =>
        let s := { s with next := none }
        match kindOf (X.ToLower se.Name.Local) with
        | none => Scanner.scanLoop X ts s
        | some k =>
          let r := X.DecodeElement k se s.decoder
          let s := { s with decoder := { s.decoder with toks := ts.drop r.2.2 },
                            next := some { kind := k, val := r.1 } }
          if r.2.1 ≠ none then (false, { s with err := r.2.1 })
          else (true, s)

/-- The method `(*Scanner).Scan`: the returned bool and the scanner after. -/
def Scanner.Scan (X : Xml V) (s : Scanner V) : Bool × Scanner V :=
  if s.err ≠ none then (false, s)
  else Scanner.scanLoop X s.decoder.toks s

/-- The method `(*Scanner).Object`. -/
def Scanner.Object (s : Scanner V) : Option (Osm.Object V) := s.next

/-- The method `(*Scanner).Err`. -/
def Scanner.Err (s : Scanner V) : Option Error :=
  if s.err = some .EOF then none
  else if s.err ≠ none then s.err
  else if s.closed then some .ErrScannerClosed
  else s.ctx.Err

/-- What can happen to a scanner between two observations: a call of one of
its four methods, or the cancellation of the context given to `New`. -/
inductive Op where
  | Scan
  | Object
  | Err
  | Close
  | Cancel (e : Error)
  deriving DecidableEq, Repr

/-- The scanner after one operation. -/
def Scanner.step (X : Xml V) (s : Scanner V) : Op → Scanner V
  | .Scan => (s.Scan X).2
  | .Object => s
  | .Err => s
  | .Close => s.Close.2
  | .Cancel e => { s with ctx := s.ctx.cancelWith e }

/-- The scanner after a sequence of operations. -/
def Scanner.run (X : Xml V) (s : Scanner V) (ops : List Op) : Scanner V :=
  ops.foldl (Scanner.step X) s

/-- The caller's loop `for s.Scan() { objs = append(objs, s.Object()) }`, with
at most `n` calls of `Scan`: the objects seen and the scanner once `Scan` has
returned false, or `none` when `n` calls were not enough. -/
def Scanner.scanAll (X : Xml V) :
    Nat → Scanner V → Option (List (Option (Osm.Object V)) × Scanner V)
  | 0, _ => none
  | n + 1, s =>
    let r := s.Scan X
    if r.1 then (Scanner.scanAll X n r.2).map (fun p => (r.2.Object :: p.1, p.2))
    else some ([], r.2)

/-- A token that `Scan` passes over: not a start element, or a start element
whose lower-cased name is none of the seven. -/
def skipped (X : Xml V) (t : Token) : Bool :=
  match t.asStart with
  | none => true
  | some se => (kindOf (X.ToLower se.Name.Local)).isNone

/-- The reference of the specification for a whole scan, following its words:
walk the tokens in order; a token that is not a start element contributes
nothing; a start element whose lower-cased name is not in the closed set
contributes nothing; a recognised one contributes its decoded value and the
walk resumes after the tokens of that element; the walk ends at the first
decode error and at the end of the tokens (the first token-pull error). The
first argument bounds the number of steps. -/
def referenceObjects (X : Xml V) (fin : Error) : Nat → List Token → List (Object V)
  | 0, _ => []
  | _ + 1, [] => []
  | n + 1, t :: ts =>
    match t.asStart with
    | none => referenceObjects X fin n ts
    | some se =>
      match kindOf (X.ToLower se.Name.Local) with
      | none => referenceObjects X fin n ts
      | some k =>
        let r := X.DecodeElement k se { toks := ts, fin := fin }
        if r.2.1 ≠ none then []
        else { kind := k, val := r.1 } :: referenceObjects X fin n (ts.drop r.2.2)

end ScannerOps

/-- What `Scan` returns, and the scanner it leaves, once it has pulled the start
element `se` of the recognised kind `k`, with `ts` the tokens left after `se`:
the `case` of the `switch` for `k` and the test of `err` that follows it. -/
def Scanner.afterDecode {V : Kind → Type} (X : Xml V) (s : Scanner V) (k : Kind)
    (se : StartElement) (ts : List Token) : Bool × Scanner V :=
  let r := X.DecodeElement k se { toks := ts, fin := s.decoder.fin }
  let s1 := { s with decoder := { toks := List.drop r.2.2 ts, fin := s.decoder.fin },
                     next := some { kind := k, val := r.1 } }
  if r.2.1 ≠ none then (false, { s1 with err := r.2.1 })
  else (true, s1)

/-- The scanner `s` with `toks` as the tokens its decoder has yet to return. -/
def Scanner.withInput {V : Kind → Type} (s : Scanner V) (toks : List Token) : Scanner V :=
  { s with decoder := { s.decoder with toks := toks } }

/-- The scanner has stopped: an error is recorded or the context is cancelled. -/
def Scanner.stopped {V : Kind → Type} (s : Scanner V) : Prop :=
  s.err ≠ none ∨ s.ctx.Err ≠ none

/-- The `for` loop of `Scan` as it is written, one call of `Token()` for each
iteration, run for at most `n` iterations: what `Scan` returns and the scanner
it leaves, or `none` when the loop has not returned within `n` iterations. -/
def Scanner.scanIter {V : Kind → Type} (X : Xml V) : Nat → Scanner V → Option (Bool × Scanner V)
  | 0, _ => none
  | n + 1, s =>
    if s.ctx.Err ≠ none then some (false, s)
    else
      match s.decoder.Token with
      | ((_, some e), d) => some (false, { s with decoder := d, err := some e })
      | ((none, none), d) => Scanner.scanIter X n { s with decoder := d }
      | ((some t, none), d) =>
        match t.asStart with
        | none => Scanner.scanIter X n { s with decoder := d }
        | some se =>
          match kindOf (X.ToLower se.Name.Local) with
          | none => Scanner.scanIter X n { s with decoder := d, next := none }
          | some k =>
            let r := X.DecodeElement k se d
            let s1 := { s with decoder := { d with toks := List.drop r.2.2 d.toks },
                               next := some { kind := k, val := r.1 } }
            if r.2.1 ≠ none then some (false, { s1 with err := r.2.1 })
            else some (true, s1)

/-- The method `Scan` with its loop run for at most `n` iterations. -/
def Scanner.ScanIter {V : Kind → Type} (X : Xml V) (n : Nat) (s : Scanner V) :
    Option (Bool × Scanner V) :=
  if s.err ≠ none then some (false, s)
  else Scanner.scanIter X n s

/-! ## tag.go, as far as tag_test.go calls it -/

/-- The struct `Tag`: a key and a value. -/
structure Tag where
  Key : String
  Value : String
  deriving DecidableEq, Repr

/-- The type `Tags`, a slice of `Tag`. -/
abbrev Tags : Type := List Tag

/-- The code points of a string. -/
def codePoints (str : String) : List Nat := str.data.map Char.toNat

/-- The lexicographic order of two lists of numbers. -/
def codesLess : List Nat → List Nat → Bool
  | [], [] => false
  | [], _ :: _ => true
  | _ :: _, [] => false
  | a :: l, b :: r => if a < b then true else if b < a then false else codesLess l r

/-- The order `<` of Go on strings: the byte-wise lexicographic order of the
UTF-8 encodings, which is the lexicographic order of the code points. -/
def strLess (s t : String) : Bool := codesLess (codePoints s) (codePoints t)

/-- Modelled from the spec: the order by which `Tags.SortByKeyValue` sorts (the
`Less` of its `sort.Interface`; tag.go is not among the sources, tag_test.go
calls the method): by key, and by value between two tags of the same key. -/
def Tag.Less (a b : Tag) : Bool :=
  if a.Key = b.Key then strLess a.Value b.Value else strLess a.Key b.Key

/-- Modelled from the spec: the method `Tags.SortByKeyValue` (tag.go is not
among the sources, tag_test.go calls the method): the tags sorted by key, then
by value. The Go method sorts the slice in place; this is the slice after the
call. Two tags that the order does not separate are equal, so the result does
not depend on the sorting algorithm. -/
def Tags.SortByKeyValue (ts : Tags) : Tags :=
  List.insertionSort (fun a b => Tag.Less b a = false) ts

/-! ## A concrete decoder, to evaluate the scanner on explicit token streams -/

namespace Demo

/-- The values of the concrete decoder: the attributes of the decoded element,
whatever its kind. -/
def V : Kind → Type := fun _ => List Attr

/-- The number of tokens up to and including the end element that closes the
element open at nesting depth `depth`; `none` when the tokens end before. -/
def closeAt : Nat → List Token → Option Nat
  | _, [] => none
  | depth, .StartElement _ :: ts => (closeAt (depth + 1) ts).map (· + 1)
  | 0, .EndElement _ :: _ => some 1
  | depth + 1, .EndElement _ :: ts => (closeAt depth ts).map (· + 1)
  | depth, _ :: ts => (closeAt depth ts).map (· + 1)

/-- Lower-casing of the ASCII letters, character by character. -/
def toLower (s : String) : String := String.mk (s.data.map Char.toLower)

/-- A concrete `Xml`: `DecodeElement` reads up to the matching end element and
yields the attributes of the start element; when the input ends inside the
element it consumes what is left and fails (with the decoder's final error, or
an unexpected-EOF error when that is `io.EOF`). -/
def xml : Xml V where
  ToLower := toLower
  DecodeElement := fun _ se d =>
    match closeAt 0 d.toks with
    | some n => (se.Attr, none, n)
    | none =>
      (se.Attr, some (if d.fin = Error.EOF then Error.other "unexpected EOF" else d.fin),
        d.toks.length)

/-- The start element `<name>` without attributes. -/
def start (name : String) : Token :=
  .StartElement { Name := { Space := "", Local := name }, Attr := [] }

/-- The end element `</name>`. -/
def stop (name : String) : Token :=
  .EndElement { Space := "", Local := name }

/-- The scanner left by a first, successful `Scan` over `<node></node>` followed
by the tokens `rest` and a clean end of input. -/
def afterNode (rest : List Token) : Scanner V :=
  (Scanner.Scan xml (New none { toks := start "node" :: stop "node" :: rest, fin := .EOF })).2

/-- The input `<bounds></bounds><node></node><foo>` followed by malformed
data: one bounds element, one node element, one element of an unknown name,
then a syntax error from `Token()`. -/
def sample : Decoder :=
  { toks := [start "bounds", stop "bounds", start "node", stop "node", start "foo"],
    fin := .other "XML syntax error" }

/-- The scanner over `sample` whose context was cancelled from outside, with
`context.DeadlineExceeded`, and which was then closed. -/
def cancelledThenClosed : Scanner V :=
  Scanner.run xml (New none sample) [Op.Cancel Error.DeadlineExceeded, Op.Close]

/-- The input `<osm><way><node></node></way><node></node></osm>`: a way that
holds a node, and a node, inside an element of an unknown name. -/
def nested : Decoder :=
  { toks := [start "osm", start "way", start "node", stop "node", stop "way",
             start "node", stop "node", stop "osm"],
    fin := .EOF }

/-! ### Concrete delegates, to evaluate the codec on explicit values

A partition is a list of strings, encoded as the list of their positions in
the string table; the serializer writes one byte per number. -/

/-- Modelled from the spec: the `intern` operation of the String Table (the
`stringSet` of the repository, which the two files do not contain): the
position of `str` in the table, appending it when it is not there yet. -/
def intern (str : String) (ss : List String) : Nat × List String :=
  if List.indexOf str ss < ss.length then (List.indexOf str ss, ss)
  else (ss.length, ss ++ [str])

/-- Interning of a list of strings, left to right. -/
def internAll : List String → List String → List Nat × List String
  | [], ss => ([], ss)
  | str :: rest, ss =>
    let r := intern str ss
    let q := internAll rest r.2
    (r.1 :: q.1, q.2)

/-- Modelled from the spec: the `resolve` operation of the String Table, over a
list of references: the strings at these positions, or `none` when a position
is outside the table. -/
def resolveAll (table : List String) : List Nat → Option (List String)
  | [] => some []
  | i :: rest =>
    match table.get? i, resolveAll table rest with
    | some str, some strs => some (str :: strs)
    | _, _ => none

/-- One byte per number, behind a length byte. -/
def encNats (l : List Nat) : List UInt8 :=
  UInt8.ofNat l.length :: l.map UInt8.ofNat

/-- The numbers behind a length byte, and the bytes after them. -/
def decNats : List UInt8 → Option (List Nat × List UInt8)
  | [] => none
  | n :: rest =>
    if n.toNat ≤ rest.length then
      some ((rest.take n.toNat).map UInt8.toNat, rest.drop n.toNat)
    else none

/-- An optional partition: a zero byte when absent, a one byte and the numbers
when present. -/
def encPartition : Option (List Nat) → List UInt8
  | none => [0]
  | some l => 1 :: encNats l

/-- The inverse of `encPartition`, with the bytes that follow. -/
def decPartition : List UInt8 → Option (Option (List Nat) × List UInt8)
  | [] => none
  | b :: rest =>
    if b = 0 then some (none, rest)
    else if b = 1 then (decNats rest).map (fun p => (some p.1, p.2))
    else none

/-- The strings of a table, each as the code points of its characters. -/
def encStrings (ss : List String) : List UInt8 :=
  UInt8.ofNat ss.length :: (ss.map (fun str => encNats (str.data.map Char.toNat))).flatten

/-- The next `n` strings, with the bytes that follow. -/
def decStringsN : Nat → List UInt8 → Option (List String × List UInt8)
  | 0, bytes => some ([], bytes)
  | n + 1, bytes =>
    match decNats bytes with
    | none => none
    | some (cs, rest) =>
      match decStringsN n rest with
      | none => none
      | some (strs, rest2) => some (String.mk (cs.map Char.ofNat) :: strs, rest2)

/-- Whether every number and every length of the message fits in a byte. -/
def fits (m : PbChange (List Nat)) : Bool :=
  let part : Option (List Nat) → Bool := fun o =>
    match o with
    | none => true
    | some l => decide (l.length < 256) && l.all (fun i => decide (i < 256))
  part m.Create && part m.Modify && part m.Delete && decide (m.Strings.length < 256)
    && m.Strings.all (fun str =>
        decide (str.length < 256) && str.data.all (fun ch => decide (ch.toNat < 256)))

/-- The bytes of a message. -/
def encode (m : PbChange (List Nat)) : List UInt8 :=
  encPartition m.Create ++ encPartition m.Modify ++ encPartition m.Delete
    ++ encStrings m.Strings

/-- The message of a sequence of bytes, `none` when they are not well formed. -/
def decode (bytes : List UInt8) : Option (PbChange (List Nat)) :=
  match decPartition bytes with
  | none => none
  | some (c, r1) =>
    match decPartition r1 with
    | none => none
    | some (m, r2) =>
      match decPartition r2 with
      | none => none
      | some (d, r3) =>
        match r3 with
        | [] => none
        | n :: r4 =>
          match decStringsN n.toNat r4 with
          | some (strs, []) => some { Create := c, Modify := m, Delete := d, Strings := strs }
          | _ => none

/-- Concrete delegates: partitions are lists of strings interned into the
table; decoding a reference outside the table is an error. -/
def delegates : Delegates (List String) (List Nat) Unit (List String) where
  newStringSet := []
  Strings := fun ss => ss
  marshalOSM := fun o ss _ =>
    match o with
    | none => (none, ss)
    | some l => (some (internAll l ss).1, (internAll l ss).2)
  unmarshalOSM := fun e table _ =>
    match e with
    | none => (none, none)
    | some refs =>
      match resolveAll table refs with
      | some strs => (some strs, none)
      | none => (none, some (Error.other "string index out of range"))
  protoMarshal := fun m =>
    if fits m then (encode m, none) else ([], some (Error.other "proto: value out of range"))
  protoUnmarshal := fun bytes =>
    match decode bytes with
    | some m => (m, none)
    | none =>
      ({ Create := none, Modify := none, Delete := none, Strings := [] },
        some (Error.other "proto: cannot parse"))

/-- A change whose Create is populated, whose Modify is present and empty and
whose Delete is absent. -/
def change : Change (List String) :=
  { Create := some ["highway", "crossing", "highway"], Modify := some [], Delete := none }

end Demo

/-! ## Theorems: the scanner -/

section ScannerTheorems

variable {V : Kind → Type}

theorem Scanner.Scan_of_stopped (X : Xml V) (s : Scanner V) (h : s.stopped) :
    s.Scan X = (false, s) := by
  unfold Scanner.Scan
  split
  · rfl
  · rename_i he
    have hc : s.ctx.Err ≠ none := by
      rcases h with h | h
      · exact absurd h he
      · exact h
    cases hl : s.decoder.toks <;> simp [Scanner.scanLoop, hc]

/-- One iteration of the loop of `Scan`, in terms of `Decoder.Token`: with no
error recorded and the context live, `Scan` pulls one token and either records
the error of the pull, or goes round again on the decoder after the pull
(having reset the current object when the token is a start element), or
decodes the element. -/
theorem Scanner.Scan_iteration (X : Xml V) (s : Scanner V) (herr : s.err = none)
    (hctx : s.ctx.Err = none) :
    s.Scan X =
      match s.decoder.Token with
      | ((_, some e), _) => (false, { s with err := some e })
      | ((some t, none), d) =>
        match t.asStart with
        | none => Scanner.Scan X { s with decoder := d }
        | some se =>
          match kindOf (X.ToLower se.Name.Local) with
          | none => Scanner.Scan X { s with decoder := d, next := none }
          | some k => Scanner.afterDecode X { s with decoder := d } k se d.toks
      | ((none, none), _) => (false, s) := by
  have hc : s.ctx.err = none := hctx
  cases hl : s.decoder.toks with
  | nil => simp [Scanner.Scan, herr, hl, Scanner.scanLoop, Context.Err, hc, Decoder.Token]
  | cons t ts =>
    simp only [Scanner.Scan, herr, hl, Scanner.scanLoop, Context.Err, hc, Decoder.Token,
      ne_eq, not_true_eq_false, if_false]
    cases hs : t.asStart with
    | none => rfl
    | some se =>
      simp only []
      cases hk : kindOf (X.ToLower se.Name.Local) with
      | none => rfl
      | some k => rfl

theorem Scanner.scanLoop_false_stopped (X : Xml V) :
    ∀ (l : List Token) (s : Scanner V),
      (Scanner.scanLoop X l s).1 = false → (Scanner.scanLoop X l s).2.stopped
  | [], s, _ => by
    by_cases hc : s.ctx.Err = none
    · simp [Scanner.scanLoop, hc, Scanner.stopped]
    · simp [Scanner.scanLoop, hc, Scanner.stopped]
  | t :: ts, s, h => by
    by_cases hc : s.ctx.Err = none
    · simp only [Scanner.scanLoop, hc, ne_eq, not_true_eq_false, if_false] at h ⊢
      cases hs : t.asStart with
      | none =>
        simp only [hs] at h ⊢
        exact Scanner.scanLoop_false_stopped X ts _ h
      | some se =>
        simp only [hs] at h ⊢
        cases hk : kindOf (X.ToLower se.Name.Local) with
        | none =>
          simp only [hk] at h ⊢
          exact Scanner.scanLoop_false_stopped X ts _ h
        | some k =>
          simp only [hk] at h ⊢
          by_cases he : (X.DecodeElement k se { toks := ts, fin := s.decoder.fin }).2.1 = none
          · simp [he] at h
          · simp [he, Scanner.stopped]
    · simp [Scanner.scanLoop, hc, Scanner.stopped]

theorem Scanner.Scan_false_stopped (X : Xml V) (s : Scanner V)
    (h : (s.Scan X).1 = false) : (s.Scan X).2.stopped := by
  unfold Scanner.Scan at h ⊢
  by_cases he : s.err = none
  · simp only [he, ne_eq, not_true_eq_false, if_false] at h ⊢
    exact Scanner.scanLoop_false_stopped X _ _ h
  · simp [he, Scanner.stopped]

theorem Context.cancelWith_Err_ne_none (c : Context) (e : Error) :
    (c.cancelWith e).Err ≠ none := by
  unfold Context.cancelWith Context.Err
  cases h : c.err <;> simp [h]

theorem Context.cancelWith_of_Err_ne_none (c : Context) (e : Error) (h : c.Err ≠ none) :
    c.cancelWith e = c := by
  unfold Context.cancelWith
  unfold Context.Err at h
  cases hc : c.err with
  | none => exact absurd hc h
  | some _ => rfl

theorem Scanner.step_stopped (X : Xml V) (s : Scanner V) (op : Op) (h : s.stopped) :
    (s.step X op).stopped := by
  cases op with
  | Scan => simp only [Scanner.step, Scanner.Scan_of_stopped X s h]; exact h
  | Object => exact h
  | Err => exact h
  | Close =>
    rcases h with h | h
    · exact Or.inl h
    · exact Or.inr (Context.cancelWith_Err_ne_none _ _)
  | Cancel e =>
    rcases h with h | h
    · exact Or.inl h
    · exact Or.inr (Context.cancelWith_Err_ne_none _ _)

theorem Scanner.run_stopped (X : Xml V) (ops : List Op) :
    ∀ s : Scanner V, s.stopped → (s.run X ops).stopped := by
  induction ops with
  | nil => intro s h; exact h
  | cons op ops ih =>
    intro s h
    exact ih _ (Scanner.step_stopped X s op h)

theorem Scanner.step_err_of_stopped (X : Xml V) (s : Scanner V) (op : Op) (h : s.stopped) :
    (s.step X op).err = s.err ∧ (s.step X op).next = s.next
      ∧ (s.step X op).decoder = s.decoder := by
  cases op with
  | Scan => simp [Scanner.step, Scanner.Scan_of_stopped X s h]
  | Object => simp [Scanner.step]
  | Err => simp [Scanner.step]
  | Close => simp [Scanner.step, Scanner.Close]
  | Cancel e => simp [Scanner.step]

theorem Scanner.run_frame_of_stopped (X : Xml V) (ops : List Op) :
    ∀ s : Scanner V, s.stopped →
      (s.run X ops).err = s.err ∧ (s.run X ops).next = s.next
        ∧ (s.run X ops).decoder = s.decoder := by
  induction ops with
  | nil => intro s _; exact ⟨rfl, rfl, rfl⟩
  | cons op ops ih =>
    intro s h
    have h1 := Scanner.step_err_of_stopped X s op h
    have h2 := ih _ (Scanner.step_stopped X s op h)
    exact ⟨h2.1.trans h1.1, h2.2.1.trans h1.2.1, h2.2.2.trans h1.2.2⟩

theorem Scanner.step_closed (X : Xml V) (s : Scanner V) (op : Op) (h : s.stopped)
    (hc : s.closed = true) : (s.step X op).closed = true := by
  cases op with
  | Scan => simp [Scanner.step, Scanner.Scan_of_stopped X s h, hc]
  | Object => simpa [Scanner.step] using hc
  | Err => simpa [Scanner.step] using hc
  | Close => simp [Scanner.step, Scanner.Close]
  | Cancel e => simpa [Scanner.step] using hc

theorem Scanner.run_closed (X : Xml V) (ops : List Op) :
    ∀ s : Scanner V, s.stopped → s.closed = true → (s.run X ops).closed = true := by
  induction ops with
  | nil => intro s _ hc; exact hc
  | cons op ops ih =>
    intro s h hc
    exact ih _ (Scanner.step_stopped X s op h) (Scanner.step_closed X s op h hc)

theorem Scanner.scanLoop_skipped (X : Xml V) :
    ∀ (l : List Token) (s : Scanner V), s.ctx.Err = none → (∀ t ∈ l, skipped X t = true) →
      (Scanner.scanLoop X l s).1 = false ∧ (Scanner.scanLoop X l s).2.err = some s.decoder.fin
  | [], s, hc, _ => by simp [Scanner.scanLoop, hc]
  | t :: ts, s, hc, hl => by
    have ht : skipped X t = true := hl t (List.mem_cons_self _ _)
    have hts : ∀ u ∈ ts, skipped X u = true := fun u hu => hl u (List.mem_cons_of_mem _ hu)
    simp only [Scanner.scanLoop, hc, ne_eq, not_true_eq_false, if_false]
    unfold skipped at ht
    cases hs : t.asStart with
    | none =>
      simp only [hs]
      exact Scanner.scanLoop_skipped X ts _ hc hts
    | some se =>
      simp only [hs] at ht ⊢
      cases hk : kindOf (X.ToLower se.Name.Local) with
      | none =>
        simp only [hk]
        exact Scanner.scanLoop_skipped X ts _ hc hts
      | some k => simp [hk] at ht

/-- C3. Once a call of `Scan` has returned false, every later call of `Scan` on
the same scanner returns false, whatever calls of `Scan`, `Object`, `Err`,
`Close` and whatever cancellations of the context happen in between. -/
theorem Scanner.scan_stops_unrecoverably (X : Xml V) (s : Scanner V) (ops : List Op)
    (h : (s.Scan X).1 = false) : (((s.Scan X).2.run X ops).Scan X).1 = false := by
  have hs := Scanner.run_stopped X ops _ (Scanner.Scan_false_stopped X s h)
  rw [Scanner.Scan_of_stopped X _ hs]

theorem Scanner.scan_stops_unrecoverably_witness :
    (Scanner.Scan Demo.xml (Demo.afterNode [Demo.start "osm"])).1 = false
    ∧ (Scanner.Scan Demo.xml (Scanner.run Demo.xml
        (Scanner.Scan Demo.xml (Demo.afterNode [Demo.start "osm"])).2
        [Op.Object, Op.Scan, Op.Err, Op.Cancel Error.DeadlineExceeded, Op.Close, Op.Scan])).1
      = false :=
  ⟨rfl, Scanner.scan_stops_unrecoverably Demo.xml (Demo.afterNode [Demo.start "osm"])
    [Op.Object, Op.Scan, Op.Err, Op.Cancel Error.DeadlineExceeded, Op.Close, Op.Scan] rfl⟩

/-- C4. When the context given to `New` is already cancelled, the first `Scan`
returns false and `Err` then returns the error of that context, for every
input. -/
theorem Scanner.scan_on_cancelled_context (X : Xml V) (ctx : Context) (r : Decoder)
    (h : ctx.Err ≠ none) :
    ((New (some ctx) r : Scanner V).Scan X).1 = false
      ∧ ((New (some ctx) r : Scanner V).Scan X).2.Err = ctx.Err := by
  have hs : (New (some ctx) r : Scanner V).stopped := Or.inr h
  rw [Scanner.Scan_of_stopped X _ hs]
  refine ⟨rfl, ?_⟩
  simp [Scanner.Err, New, Context.WithCancel, Context.Err]

theorem Scanner.scan_on_cancelled_context_witness :
    (Context.mk (some Error.DeadlineExceeded)).Err ≠ none
    ∧ (Scanner.Scan Demo.xml
        (New (some (Context.mk (some Error.DeadlineExceeded))) Demo.sample)).1 = false
    ∧ (Scanner.Scan Demo.xml
        (New (some (Context.mk (some Error.DeadlineExceeded))) Demo.sample)).2.Err
      = some Error.DeadlineExceeded :=
  ⟨by decide, Scanner.scan_on_cancelled_context Demo.xml
    (Context.mk (some Error.DeadlineExceeded)) Demo.sample (by decide)⟩

/-- C5. After `Close`, every call of `Scan` returns false, whatever the state
of the scanner and its input and whatever happens in between; and when no error
was recorded before the `Close`, `Err` returns `ErrScannerClosed`. -/
theorem Scanner.scan_after_Close (X : Xml V) (s : Scanner V) (ops : List Op) :
    ((s.Close.2.run X ops).Scan X).1 = false
      ∧ (s.err = none → (s.Close.2.run X ops).Err = some Error.ErrScannerClosed) := by
  have hs : s.Close.2.stopped := Or.inr (Context.cancelWith_Err_ne_none _ _)
  refine ⟨?_, fun he => ?_⟩
  · rw [Scanner.Scan_of_stopped X _ (Scanner.run_stopped X ops _ hs)]
  · have hf := (Scanner.run_frame_of_stopped X ops _ hs).1
    have hc := Scanner.run_closed X ops _ hs rfl
    have he2 : (s.Close.2.run X ops).err = none := by
      rw [hf]; simpa [Scanner.Close] using he
    simp [Scanner.Err, he2, hc]

theorem Scanner.scan_after_Close_witness :
    (Demo.afterNode [Demo.start "way", Demo.stop "way"]).err = none
    ∧ (Scanner.run Demo.xml (Demo.afterNode [Demo.start "way", Demo.stop "way"]).Close.2
        [Op.Scan, Op.Object, Op.Cancel Error.Canceled]).Err = some Error.ErrScannerClosed :=
  ⟨rfl, (Scanner.scan_after_Close Demo.xml (Demo.afterNode [Demo.start "way", Demo.stop "way"])
    [Op.Scan, Op.Object, Op.Cancel Error.Canceled]).2 rfl⟩

/-- C6. When no error is recorded, the context is not cancelled, and `Scan`
pulls tokens until `Token()` reports `io.EOF` (every remaining token is one it
passes over), that `Scan` returns false having recorded `io.EOF`, `Err` returns
nil, and `Err` still returns nil after any later calls and cancellations. -/
theorem Scanner.end_of_input_is_clean (X : Xml V) (s : Scanner V) (ops : List Op)
    (herr : s.err = none) (hctx : s.ctx.Err = none)
    (hskip : ∀ t ∈ s.decoder.toks, skipped X t = true) (hfin : s.decoder.fin = Error.EOF) :
    (s.Scan X).1 = false ∧ (s.Scan X).2.err = some Error.EOF ∧ (s.Scan X).2.Err = none
      ∧ ((s.Scan X).2.run X ops).Err = none := by
  have hl := Scanner.scanLoop_skipped X s.decoder.toks s hctx hskip
  have hS : s.Scan X = Scanner.scanLoop X s.decoder.toks s := by
    simp [Scanner.Scan, herr]
  rw [hS]
  have he : (Scanner.scanLoop X s.decoder.toks s).2.err = some Error.EOF := by
    rw [hl.2, hfin]
  have hst : (Scanner.scanLoop X s.decoder.toks s).2.stopped := Or.inl (by simp [he])
  have hr := (Scanner.run_frame_of_stopped X ops _ hst).1
  refine ⟨hl.1, he, ?_, ?_⟩
  · simp [Scanner.Err, he]
  · simp [Scanner.Err, hr, he]

theorem Scanner.end_of_input_is_clean_witness :
    (∀ t ∈ (Demo.afterNode [Token.CharData "\n", Demo.start "osm", Demo.stop "osm"]).decoder.toks,
        skipped Demo.xml t = true)
    ∧ (Scanner.Scan Demo.xml
        (Demo.afterNode [Token.CharData "\n", Demo.start "osm", Demo.stop "osm"])).1 = false
    ∧ (Scanner.Scan Demo.xml
        (Demo.afterNode [Token.CharData "\n", Demo.start "osm", Demo.stop "osm"])).2.err
      = some Error.EOF
    ∧ (Scanner.Scan Demo.xml
        (Demo.afterNode [Token.CharData "\n", Demo.start "osm", Demo.stop "osm"])).2.Err = none
    ∧ (Scanner.run Demo.xml (Scanner.Scan Demo.xml
        (Demo.afterNode [Token.CharData "\n", Demo.start "osm", Demo.stop "osm"])).2
        [Op.Scan, Op.Close, Op.Cancel Error.DeadlineExceeded, Op.Scan]).Err = none :=
  ⟨by decide, Scanner.end_of_input_is_clean Demo.xml
    (Demo.afterNode [Token.CharData "\n", Demo.start "osm", Demo.stop "osm"])
    [Op.Scan, Op.Close, Op.Cancel Error.DeadlineExceeded, Op.Scan] rfl rfl (by decide) rfl⟩

theorem Scanner.scanLoop_reach (X : Xml V) (se : StartElement) (ts : List Token) (k : Kind)
    (hk : kindOf (X.ToLower se.Name.Local) = some k) :
    ∀ (pre : List Token) (s : Scanner V), s.ctx.Err = none →
      (∀ t ∈ pre, skipped X t = true) →
      Scanner.scanLoop X (pre ++ Token.StartElement se :: ts) s = s.afterDecode X k se ts
  | [], s, hc, _ => by
    simp [Scanner.scanLoop, hc, Token.asStart, hk, Scanner.afterDecode]
  | t :: pre, s, hc, hl => by
    have ht : skipped X t = true := hl t (List.mem_cons_self _ _)
    have hts : ∀ u ∈ pre, skipped X u = true := fun u hu => hl u (List.mem_cons_of_mem _ hu)
    simp only [List.cons_append, Scanner.scanLoop, hc, ne_eq, not_true_eq_false, if_false]
    unfold skipped at ht
    cases hs : t.asStart with
    | none =>
      simp only [hs]
      exact Scanner.scanLoop_reach X se ts k hk pre _ hc hts
    | some se2 =>
      simp only [hs] at ht ⊢
      cases hk2 : kindOf (X.ToLower se2.Name.Local) with
      | none =>
        simp only [hk2]
        exact Scanner.scanLoop_reach X se ts k hk pre _ hc hts
      | some k2 => simp [hk2] at ht

/-- C9. When `Scan` reaches a start element with a recognised name (passing
over the tokens before it) and `DecodeElement` returns the error `e`, that
`Scan` returns false, `Err` returns `e` (nil when `e` is `io.EOF`), and every
later `Scan`, whatever happens in between, returns false and leaves the decoder
as it was: no further token is pulled. -/
theorem Scanner.decode_error_is_fatal (X : Xml V) (s : Scanner V) (pre : List Token)
    (se : StartElement) (ts : List Token) (k : Kind) (e : Error) (ops : List Op)
    (herr : s.err = none) (hctx : s.ctx.Err = none)
    (htoks : s.decoder.toks = pre ++ Token.StartElement se :: ts)
    (hpre : ∀ t ∈ pre, skipped X t = true)
    (hk : kindOf (X.ToLower se.Name.Local) = some k)
    (he : (X.DecodeElement k se { toks := ts, fin := s.decoder.fin }).2.1 = some e) :
    (s.Scan X).1 = false
      ∧ (s.Scan X).2.Err = (if e = Error.EOF then none else some e)
      ∧ (((s.Scan X).2.run X ops).Scan X).1 = false
      ∧ (((s.Scan X).2.run X ops).Scan X).2.decoder = (s.Scan X).2.decoder := by
  have hS : s.Scan X = Scanner.scanLoop X (pre ++ Token.StartElement se :: ts) s := by
    simp [Scanner.Scan, herr, htoks]
  have hR := Scanner.scanLoop_reach X se ts k hk pre s hctx hpre
  rw [← hS] at hR
  simp only [Scanner.afterDecode, he, ne_eq, reduceCtorEq, not_false_eq_true, if_true] at hR
  have h1 : (s.Scan X).1 = false := by rw [hR]
  have h2 : (s.Scan X).2.err = some e := by rw [hR]
  have hst : (s.Scan X).2.stopped := Or.inl (by simp [h2])
  have hrun := Scanner.run_stopped X ops _ hst
  have hfr := Scanner.run_frame_of_stopped X ops _ hst
  refine ⟨h1, ?_, ?_, ?_⟩
  · by_cases hE : e = Error.EOF
    · simp [Scanner.Err, h2, hE]
    · simp [Scanner.Err, h2, hE]
  · rw [Scanner.Scan_of_stopped X _ hrun]
  · rw [Scanner.Scan_of_stopped X _ hrun]
    exact hfr.2.2

theorem Scanner.decode_error_is_fatal_witness :
    (Demo.xml.DecodeElement Kind.Node { Name := { Space := "", Local := "Node" }, Attr := [] }
        { toks := [Token.CharData "x"], fin := Error.EOF }).2.1
      = some (Error.other "unexpected EOF")
    ∧ (Scanner.Scan Demo.xml (New none
        { toks := [Token.CharData "\n", Demo.start "Node", Token.CharData "x"],
          fin := Error.EOF })).1 = false
    ∧ (Scanner.Scan Demo.xml (New none
        { toks := [Token.CharData "\n", Demo.start "Node", Token.CharData "x"],
          fin := Error.EOF })).2.Err = some (Error.other "unexpected EOF") :=
  have h := Scanner.decode_error_is_fatal Demo.xml
    (New none { toks := [Token.CharData "\n", Demo.start "Node", Token.CharData "x"],
                fin := Error.EOF })
    [Token.CharData "\n"] { Name := { Space := "", Local := "Node" }, Attr := [] }
    [Token.CharData "x"] Kind.Node (Error.other "unexpected EOF") [Op.Scan, Op.Close]
    rfl rfl rfl (by decide) (by decide) rfl
  ⟨rfl, h.1, h.2.1⟩

theorem eq_of_asStart {t : Token} {se : StartElement} (h : t.asStart = some se) :
    t = Token.StartElement se := by
  cases t <;> simp [Token.asStart] at h
  rw [h]

theorem tokens_skipped_or_reach (X : Xml V) :
    ∀ l : List Token, (∀ t ∈ l, skipped X t = true) ∨
      ∃ pre se ts k, l = pre ++ Token.StartElement se :: ts ∧ (∀ t ∈ pre, skipped X t = true)
        ∧ kindOf (X.ToLower se.Name.Local) = some k
  | [] => Or.inl (by simp)
  | t :: l => by
    by_cases ht : skipped X t = true
    · rcases tokens_skipped_or_reach X l with h | ⟨pre, se, ts, k, h1, h2, h3⟩
      · left
        intro u hu
        rcases List.mem_cons.1 hu with rfl | hu
        · exact ht
        · exact h u hu
      · right
        refine ⟨t :: pre, se, ts, k, by simp [h1], ?_, h3⟩
        intro u hu
        rcases List.mem_cons.1 hu with rfl | hu
        · exact ht
        · exact h2 u hu
    · right
      unfold skipped at ht
      cases hs : t.asStart with
      | none => simp [hs] at ht
      | some se =>
        simp only [hs] at ht
        cases hk : kindOf (X.ToLower se.Name.Local) with
        | none => simp [hk] at ht
        | some k =>
          exact ⟨[], se, l, k, by simp [eq_of_asStart hs], by simp, hk⟩

theorem Scanner.Scan_eq_afterDecode (X : Xml V) (s : Scanner V) (pre : List Token)
    (se : StartElement) (ts : List Token) (k : Kind)
    (herr : s.err = none) (hctx : s.ctx.Err = none)
    (htoks : s.decoder.toks = pre ++ Token.StartElement se :: ts)
    (hpre : ∀ t ∈ pre, skipped X t = true)
    (hk : kindOf (X.ToLower se.Name.Local) = some k) :
    s.Scan X = s.afterDecode X k se ts := by
  rw [← Scanner.scanLoop_reach X se ts k hk pre s hctx hpre]
  simp [Scanner.Scan, herr, htoks]

theorem Scanner.Scan_true_pulls (X : Xml V) (s : Scanner V) (h : (s.Scan X).1 = true) :
    s.err = none ∧ s.ctx.Err = none := by
  by_cases he : s.err = none
  · refine ⟨he, ?_⟩
    by_contra hc
    rw [Scanner.Scan_of_stopped X s (Or.inr hc)] at h
    exact Bool.noConfusion h
  · rw [Scanner.Scan_of_stopped X s (Or.inl he)] at h
    exact Bool.noConfusion h

/-- C10. Whenever `Scan` returns true it has passed over a run of tokens and
stopped on a start element `se` whose lower-cased name selects a kind `k`, the
decode of `se` returned no error, and `Object` is the value of kind `k` that
this decode produced. The kind is the one the `switch` gives for the
lower-cased name (bounds, node, way, relation, changeset, note, user), so two
start elements whose names have the same lower-casing give objects of the same
kind. -/
theorem Scanner.scan_classifies_by_lowered_name (X : Xml V) :
    (∀ s : Scanner V, (s.Scan X).1 = true →
      ∃ pre se ts k, s.decoder.toks = pre ++ Token.StartElement se :: ts
        ∧ (∀ t ∈ pre, skipped X t = true)
        ∧ kindOf (X.ToLower se.Name.Local) = some k
        ∧ (X.DecodeElement k se { toks := ts, fin := s.decoder.fin }).2.1 = none
        ∧ (s.Scan X).2.Object =
            some ⟨k, (X.DecodeElement k se { toks := ts, fin := s.decoder.fin }).1⟩)
    ∧ (kindOf "bounds" = some Kind.Bounds ∧ kindOf "node" = some Kind.Node
        ∧ kindOf "way" = some Kind.Way ∧ kindOf "relation" = some Kind.Relation
        ∧ kindOf "changeset" = some Kind.Changeset ∧ kindOf "note" = some Kind.Note
        ∧ kindOf "user" = some Kind.User)
    ∧ (∀ (s1 s2 : Scanner V) (pre1 pre2 : List Token) (se1 se2 : StartElement)
        (ts1 ts2 : List Token) (k : Kind),
        s1.err = none → s1.ctx.Err = none → s2.err = none → s2.ctx.Err = none →
        s1.decoder.toks = pre1 ++ Token.StartElement se1 :: ts1 →
        s2.decoder.toks = pre2 ++ Token.StartElement se2 :: ts2 →
        (∀ t ∈ pre1, skipped X t = true) → (∀ t ∈ pre2, skipped X t = true) →
        kindOf (X.ToLower se1.Name.Local) = some k →
        X.ToLower se2.Name.Local = X.ToLower se1.Name.Local →
        ((s1.Scan X).2.Object).map Object.kind = some k
          ∧ ((s2.Scan X).2.Object).map Object.kind = some k) := by
  refine ⟨?_, ?_, ?_⟩
  · intro s h
    obtain ⟨herr, hctx⟩ := Scanner.Scan_true_pulls X s h
    rcases tokens_skipped_or_reach X s.decoder.toks with hsk | ⟨pre, se, ts, k, h1, h2, h3⟩
    · have hf := (Scanner.scanLoop_skipped X s.decoder.toks s hctx hsk).1
      have hS : s.Scan X = Scanner.scanLoop X s.decoder.toks s := by
        simp [Scanner.Scan, herr]
      rw [hS, hf] at h
      exact Bool.noConfusion h
    · refine ⟨pre, se, ts, k, h1, h2, h3, ?_⟩
      have hS := Scanner.Scan_eq_afterDecode X s pre se ts k herr hctx h1 h2 h3
      rw [hS] at h ⊢
      by_cases he : (X.DecodeElement k se { toks := ts, fin := s.decoder.fin }).2.1 = none
      · exact ⟨he, by simp [Scanner.afterDecode, he, Scanner.Object]⟩
      · simp [Scanner.afterDecode, he] at h
  · decide
  · intro s1 s2 pre1 pre2 se1 se2 ts1 ts2 k he1 hc1 he2 hc2 ht1 ht2 hp1 hp2 hk hlow
    have hk2 : kindOf (X.ToLower se2.Name.Local) = some k := by rw [hlow]; exact hk
    rw [Scanner.Scan_eq_afterDecode X s1 pre1 se1 ts1 k he1 hc1 ht1 hp1 hk,
      Scanner.Scan_eq_afterDecode X s2 pre2 se2 ts2 k he2 hc2 ht2 hp2 hk2]
    constructor
    · by_cases he : (X.DecodeElement k se1 { toks := ts1, fin := s1.decoder.fin }).2.1 = none
      · simp [Scanner.afterDecode, he, Scanner.Object]
      · simp [Scanner.afterDecode, he, Scanner.Object]
    · by_cases he : (X.DecodeElement k se2 { toks := ts2, fin := s2.decoder.fin }).2.1 = none
      · simp [Scanner.afterDecode, he, Scanner.Object]
      · simp [Scanner.afterDecode, he, Scanner.Object]

theorem Scanner.scan_classifies_by_lowered_name_witness :
    Demo.xml.ToLower "NODE" = Demo.xml.ToLower "Node"
    ∧ ((Scanner.Scan Demo.xml
          (New none { toks := [Demo.start "Node", Demo.stop "Node"], fin := Error.EOF })).2.Object).map
        Object.kind = some Kind.Node
    ∧ ((Scanner.Scan Demo.xml
          (New none { toks := [Token.CharData " ", Demo.start "NODE", Demo.stop "NODE"],
                      fin := Error.EOF })).2.Object).map
        Object.kind = some Kind.Node :=
  ⟨by decide, (Scanner.scan_classifies_by_lowered_name Demo.xml).2.2
    (New none { toks := [Demo.start "Node", Demo.stop "Node"], fin := Error.EOF })
    (New none { toks := [Token.CharData " ", Demo.start "NODE", Demo.stop "NODE"],
                fin := Error.EOF })
    [] [Token.CharData " "] { Name := { Space := "", Local := "Node" }, Attr := [] }
    { Name := { Space := "", Local := "NODE" }, Attr := [] }
    [Demo.stop "Node"] [Demo.stop "NODE"] Kind.Node rfl rfl rfl rfl rfl rfl
    (by decide) (by decide) (by decide) (by decide)⟩

theorem Scanner.scanLoop_next (X : Xml V) :
    ∀ (l : List Token) (s : Scanner V) (n : Option (Osm.Object V)),
      (Scanner.scanLoop X l { s with next := n }).1 = (Scanner.scanLoop X l s).1
      ∧ (Scanner.scanLoop X l { s with next := n }).2.err = (Scanner.scanLoop X l s).2.err
      ∧ (Scanner.scanLoop X l { s with next := n }).2.closed = (Scanner.scanLoop X l s).2.closed
      ∧ (Scanner.scanLoop X l { s with next := n }).2.ctx = (Scanner.scanLoop X l s).2.ctx
      ∧ (Scanner.scanLoop X l { s with next := n }).2.decoder
          = (Scanner.scanLoop X l s).2.decoder
      ∧ ((Scanner.scanLoop X l s).1 = true →
          (Scanner.scanLoop X l { s with next := n }).2.next = (Scanner.scanLoop X l s).2.next)
  | [], s, n => by
    by_cases hc : s.ctx.Err = none
    · simp [Scanner.scanLoop, hc]
    · simp [Scanner.scanLoop, hc]
  | t :: ts, s, n => by
    by_cases hc : s.ctx.Err = none
    · simp only [Scanner.scanLoop, hc, ne_eq, not_true_eq_false, if_false]
      cases hs : t.asStart with
      | none =>
        simp only [hs]
        exact Scanner.scanLoop_next X ts
          { s with decoder := { s.decoder with toks := ts } } n
      | some se =>
        simp [hs]
    · simp [Scanner.scanLoop, hc]

theorem Scanner.Err_congr (a b : Scanner V) (h1 : a.err = b.err) (h2 : a.closed = b.closed)
    (h3 : a.ctx = b.ctx) : a.Err = b.Err := by
  simp [Scanner.Err, h1, h2, h3]

/-- C8 (as amended). A start element whose lower-cased name is none of the
seven is passed over like a token that is not a start element: `Scan` records
no error for it and goes on with the next token, so the value `Scan` returns
and `Err` are the same as for a non-start token in its place, and so is
`Object` whenever `Scan` returns true. The scanner it leaves is the one a
non-start token leaves when the current object is nil at the start: the start
element resets the current object before its name is looked at. -/
theorem Scanner.unknown_start_is_passed_over (X : Xml V) (s : Scanner V) (se : StartElement)
    (t : Token) (ts : List Token)
    (hse : kindOf (X.ToLower se.Name.Local) = none) (ht : t.asStart = none) :
    ((s.withInput (Token.StartElement se :: ts)).Scan X).1 = ((s.withInput (t :: ts)).Scan X).1
    ∧ ((s.withInput (Token.StartElement se :: ts)).Scan X).2.Err
        = ((s.withInput (t :: ts)).Scan X).2.Err
    ∧ (((s.withInput (Token.StartElement se :: ts)).Scan X).1 = true →
        ((s.withInput (Token.StartElement se :: ts)).Scan X).2.Object
          = ((s.withInput (t :: ts)).Scan X).2.Object)
    ∧ (s.err = none → s.ctx.Err = none →
        (s.withInput (Token.StartElement se :: ts)).Scan X
            = (({ s with next := none } : Scanner V).withInput ts).Scan X
        ∧ (s.withInput (t :: ts)).Scan X = (s.withInput ts).Scan X
        ∧ (s.withInput (Token.StartElement se :: ts)).Scan X
            = (({ s with next := none } : Scanner V).withInput (t :: ts)).Scan X) := by
  by_cases hp : s.err = none ∧ s.ctx.Err = none
  · obtain ⟨herr, hctx⟩ := hp
    have hctx2 : s.ctx.err = none := hctx
    have ha : (s.withInput (Token.StartElement se :: ts)).Scan X
        = (({ s with next := none } : Scanner V).withInput ts).Scan X := by
      simp [Scanner.Scan, Scanner.withInput, herr, Scanner.scanLoop, hctx2, Context.Err,
        Token.asStart, hse]
    have hb : (s.withInput (t :: ts)).Scan X = (s.withInput ts).Scan X := by
      simp [Scanner.Scan, Scanner.withInput, herr, Scanner.scanLoop, hctx2, Context.Err, ht]
    have hb0 : (({ s with next := none } : Scanner V).withInput (t :: ts)).Scan X
        = (({ s with next := none } : Scanner V).withInput ts).Scan X := by
      simp [Scanner.Scan, Scanner.withInput, herr, Scanner.scanLoop, hctx2, Context.Err, ht]
    have hn := Scanner.scanLoop_next X ts (s.withInput ts) none
    have e1 : (({ s with next := none } : Scanner V).withInput ts).Scan X
        = Scanner.scanLoop X ts { s.withInput ts with next := none } := by
      simp [Scanner.Scan, Scanner.withInput, herr]
    have e2 : (s.withInput ts).Scan X = Scanner.scanLoop X ts (s.withInput ts) := by
      simp [Scanner.Scan, Scanner.withInput, herr]
    refine ⟨?_, ?_, ?_, fun _ _ => ⟨ha, hb, ha.trans hb0.symm⟩⟩
    · rw [ha, hb, e1, e2]; exact hn.1
    · rw [ha, hb, e1, e2]
      exact Scanner.Err_congr _ _ hn.2.1 hn.2.2.1 hn.2.2.2.1
    · rw [ha, hb, e1, e2]
      intro h
      rw [hn.1] at h
      exact hn.2.2.2.2.2 h
  · have hst : ∀ l : List Token, (s.withInput l).stopped := by
      intro l
      by_cases herr : s.err = none
      · right
        intro hc
        exact hp ⟨herr, hc⟩
      · exact Or.inl herr
    rw [Scanner.Scan_of_stopped X _ (hst _), Scanner.Scan_of_stopped X _ (hst _)]
    refine ⟨rfl, rfl, fun _ => rfl, fun h1 h2 => absurd ⟨h1, h2⟩ hp⟩

theorem Scanner.unknown_start_is_passed_over_witness :
    kindOf (Demo.xml.ToLower "osm") = none
    ∧ (Scanner.Scan Demo.xml ((Demo.afterNode []).withInput
        [Demo.start "osm", Demo.start "way", Demo.stop "way"])).1
      = (Scanner.Scan Demo.xml ((Demo.afterNode []).withInput
        [Token.CharData "osm", Demo.start "way", Demo.stop "way"])).1
    ∧ (Scanner.Scan Demo.xml ((Demo.afterNode []).withInput
        [Demo.start "osm", Demo.start "way", Demo.stop "way"])).2.Err
      = (Scanner.Scan Demo.xml ((Demo.afterNode []).withInput
        [Token.CharData "osm", Demo.start "way", Demo.stop "way"])).2.Err :=
  have h := Scanner.unknown_start_is_passed_over Demo.xml (Demo.afterNode [])
    { Name := { Space := "", Local := "osm" }, Attr := [] } (Token.CharData "osm")
    [Demo.start "way", Demo.stop "way"] (by decide) rfl
  ⟨by decide, h.1, h.2.1⟩

/-- C8, the claim as stated fails. After a successful `Scan` over
`<node></node>`, a second `Scan` that meets the unknown start element `<osm>`
and then the end of input leaves `Object` nil, while with character data in
place of `<osm>` it leaves `Object` as the node: the two scanners agree on the
returned value and on `Err` but not on `Object`. -/
theorem Scanner.unknown_start_resets_object :
    ((Demo.afterNode [Demo.start "osm"]).Scan Demo.xml).1 = false
    ∧ ((Demo.afterNode [Token.CharData "osm"]).Scan Demo.xml).1 = false
    ∧ ((Demo.afterNode [Demo.start "osm"]).Scan Demo.xml).2.Object = none
    ∧ ((Demo.afterNode [Token.CharData "osm"]).Scan Demo.xml).2.Object
        = some { kind := Kind.Node, val := ([] : List Attr) }
    ∧ ¬ (((Demo.afterNode [Demo.start "osm"]).Scan Demo.xml).1
            = ((Demo.afterNode [Token.CharData "osm"]).Scan Demo.xml).1
          ∧ ((Demo.afterNode [Demo.start "osm"]).Scan Demo.xml).2.Err
            = ((Demo.afterNode [Token.CharData "osm"]).Scan Demo.xml).2.Err
          ∧ ((Demo.afterNode [Demo.start "osm"]).Scan Demo.xml).2.Object
            = ((Demo.afterNode [Token.CharData "osm"]).Scan Demo.xml).2.Object) := by
  have h3 : ((Demo.afterNode [Demo.start "osm"]).Scan Demo.xml).2.Object = none := rfl
  have h4 : ((Demo.afterNode [Token.CharData "osm"]).Scan Demo.xml).2.Object
      = some { kind := Kind.Node, val := ([] : List Attr) } := rfl
  refine ⟨rfl, rfl, h3, h4, ?_⟩
  rintro ⟨_, _, h⟩
  rw [h3, h4] at h
  exact Option.noConfusion h

theorem referenceObjects_skip (X : Xml V) (fin : Error) :
    ∀ pre : List Token, (∀ t ∈ pre, skipped X t = true) → ∀ (m : Nat) (l : List Token),
      referenceObjects X fin (m + pre.length) (pre ++ l) = referenceObjects X fin m l
  | [], _, m, l => by simp
  | t :: pre, hl, m, l => by
    have ht : skipped X t = true := hl t (List.mem_cons_self _ _)
    have hts : ∀ u ∈ pre, skipped X u = true := fun u hu => hl u (List.mem_cons_of_mem _ hu)
    have hm : m + (t :: pre).length = (m + pre.length) + 1 := by simp [Nat.add_assoc]
    rw [hm]
    simp only [List.cons_append, referenceObjects]
    unfold skipped at ht
    cases hs : t.asStart with
    | none =>
      simp only [hs]
      exact referenceObjects_skip X fin pre hts m l
    | some se =>
      simp only [hs] at ht ⊢
      cases hk : kindOf (X.ToLower se.Name.Local) with
      | none =>
        simp only [hk]
        exact referenceObjects_skip X fin pre hts m l
      | some k => simp [hk] at ht

theorem referenceObjects_all_skipped (X : Xml V) (fin : Error) :
    ∀ (m : Nat) (l : List Token), (∀ t ∈ l, skipped X t = true) →
      referenceObjects X fin m l = []
  | 0, l, _ => by cases l <;> rfl
  | _ + 1, [], _ => rfl
  | m + 1, t :: l, hl => by
    have ht : skipped X t = true := hl t (List.mem_cons_self _ _)
    have hts : ∀ u ∈ l, skipped X u = true := fun u hu => hl u (List.mem_cons_of_mem _ hu)
    simp only [referenceObjects]
    unfold skipped at ht
    cases hs : t.asStart with
    | none =>
      simp only [hs]
      exact referenceObjects_all_skipped X fin m l hts
    | some se =>
      simp only [hs] at ht ⊢
      cases hk : kindOf (X.ToLower se.Name.Local) with
      | none =>
        simp only [hk]
        exact referenceObjects_all_skipped X fin m l hts
      | some k => simp [hk] at ht

theorem referenceObjects_reach (X : Xml V) (fin : Error) (pre : List Token)
    (hpre : ∀ t ∈ pre, skipped X t = true) (se : StartElement) (ts : List Token) (k : Kind)
    (hk : kindOf (X.ToLower se.Name.Local) = some k) (m : Nat) :
    referenceObjects X fin (m + 1 + pre.length) (pre ++ Token.StartElement se :: ts) =
      if (X.DecodeElement k se { toks := ts, fin := fin }).2.1 ≠ none then []
      else ⟨k, (X.DecodeElement k se { toks := ts, fin := fin }).1⟩ ::
        referenceObjects X fin m
          (List.drop (X.DecodeElement k se { toks := ts, fin := fin }).2.2 ts) := by
  rw [referenceObjects_skip X fin pre hpre]
  simp [referenceObjects, Token.asStart, hk]

theorem Scanner.scanAll_of_false (X : Xml V) (s : Scanner V) (n : Nat)
    (h : (s.Scan X).1 = false) : Scanner.scanAll X (n + 1) s = some ([], (s.Scan X).2) := by
  simp [Scanner.scanAll, h]

theorem Scanner.scanAll_reference_aux (X : Xml V) :
    ∀ (N : Nat) (s : Scanner V), s.decoder.toks.length ≤ N → s.err = none →
      s.ctx.Err = none → ∀ n m : Nat, s.decoder.toks.length < n → s.decoder.toks.length ≤ m →
        ∃ s1, Scanner.scanAll X n s =
            some ((referenceObjects X s.decoder.fin m s.decoder.toks).map some, s1)
          ∧ (s1.Scan X).1 = false := by
  intro N
  induction N with
  | zero =>
    intro s hN herr hctx n m hn _
    have hnil : s.decoder.toks = [] := List.length_eq_zero.1 (Nat.le_zero.1 hN)
    have hsk : ∀ t ∈ s.decoder.toks, skipped X t = true := by simp [hnil]
    have hS : s.Scan X = Scanner.scanLoop X s.decoder.toks s := by simp [Scanner.Scan, herr]
    have hf : (s.Scan X).1 = false := by
      rw [hS]; exact (Scanner.scanLoop_skipped X _ s hctx hsk).1
    obtain ⟨n, rfl⟩ : ∃ n1, n = n1 + 1 := ⟨n - 1, by omega⟩
    refine ⟨(s.Scan X).2, ?_, ?_⟩
    · rw [Scanner.scanAll_of_false X s n hf, referenceObjects_all_skipped X _ m _ hsk]
      rfl
    · rw [Scanner.Scan_of_stopped X _ (Scanner.Scan_false_stopped X s hf)]
  | succ N ih =>
    intro s hN herr hctx n m hn hm
    have hS : s.Scan X = Scanner.scanLoop X s.decoder.toks s := by simp [Scanner.Scan, herr]
    obtain ⟨n, rfl⟩ : ∃ n1, n = n1 + 1 := ⟨n - 1, by omega⟩
    rcases tokens_skipped_or_reach X s.decoder.toks with hsk | ⟨pre, se, ts, k, h1, h2, h3⟩
    · have hf : (s.Scan X).1 = false := by
        rw [hS]; exact (Scanner.scanLoop_skipped X _ s hctx hsk).1
      refine ⟨(s.Scan X).2, ?_, ?_⟩
      · rw [Scanner.scanAll_of_false X s n hf, referenceObjects_all_skipped X _ m _ hsk]
        rfl
      · rw [Scanner.Scan_of_stopped X _ (Scanner.Scan_false_stopped X s hf)]
    · have hA := Scanner.Scan_eq_afterDecode X s pre se ts k herr hctx h1 h2 h3
      have hlen : s.decoder.toks.length = pre.length + (ts.length + 1) := by
        rw [h1]; simp
      obtain ⟨m, rfl⟩ : ∃ m1, m = m1 + 1 + pre.length := ⟨m - 1 - pre.length, by omega⟩
      rw [h1, referenceObjects_reach X _ pre h2 se ts k h3 m]
      by_cases he : (X.DecodeElement k se { toks := ts, fin := s.decoder.fin }).2.1 = none
      · obtain ⟨s2, hA2, e2, c2, d2, n2⟩ : ∃ s2 : Scanner V, s.Scan X = (true, s2)
            ∧ s2.err = none ∧ s2.ctx = s.ctx
            ∧ s2.decoder = { toks := List.drop (X.DecodeElement k se
                { toks := ts, fin := s.decoder.fin }).2.2 ts, fin := s.decoder.fin }
            ∧ s2.next = some ⟨k, (X.DecodeElement k se
                { toks := ts, fin := s.decoder.fin }).1⟩ := by
          refine ⟨(s.afterDecode X k se ts).2, ?_, ?_, ?_, ?_, ?_⟩ <;>
            simp [hA, Scanner.afterDecode, he, herr]
        have hl2 : s2.decoder.toks.length ≤ ts.length := by
          rw [d2]; simp
        have hf2 : s2.decoder.fin = s.decoder.fin := by rw [d2]
        obtain ⟨s1, hs1, hs1f⟩ := ih s2 (by omega) e2 (by rw [c2]; exact hctx) n m
          (by omega) (by omega)
        refine ⟨s1, ?_, hs1f⟩
        rw [hf2, d2] at hs1
        simp only [Scanner.scanAll, hA2, if_true, hs1, he, ne_eq, not_true_eq_false, if_false,
          Option.map_some', List.map_cons, Scanner.Object, n2]
      · have hf : (s.Scan X).1 = false := by
          rw [hA]; simp [Scanner.afterDecode, he]
        refine ⟨(s.Scan X).2, ?_, ?_⟩
        · rw [Scanner.scanAll_of_false X s n hf]
          simp [he]
        · rw [Scanner.Scan_of_stopped X _ (Scanner.Scan_false_stopped X s hf)]

/-- C2. Scanning to exhaustion equals the reference walk. For a scanner with
no error recorded and a context that is not cancelled, the loop
`for s.Scan() { ... s.Object() ... }` ends (any number of calls above the number
of remaining tokens is enough) and the objects it has seen are, in order, the
values of `referenceObjects`: the decoded values of the recognised start
elements that `Scan` pulls, up to the first token-pull or decode error, nothing
for the other tokens. On the input of one bounds element, one node element,
one unknown element and then malformed data, `Scan` returns true, true, false,
`Err` is then non-nil, and two objects are seen. -/
theorem Scanner.scan_all_eq_reference (X : Xml V) (s : Scanner V) (n m : Nat)
    (herr : s.err = none) (hctx : s.ctx.Err = none)
    (hn : s.decoder.toks.length < n) (hm : s.decoder.toks.length ≤ m) :
    (∃ s1, Scanner.scanAll X n s =
        some ((referenceObjects X s.decoder.fin m s.decoder.toks).map some, s1)
      ∧ (s1.Scan X).1 = false)
    ∧ ((Scanner.Scan Demo.xml (New none Demo.sample)).1 = true
      ∧ (Scanner.Scan Demo.xml (Scanner.run Demo.xml (New none Demo.sample) [Op.Scan])).1 = true
      ∧ (Scanner.Scan Demo.xml
          (Scanner.run Demo.xml (New none Demo.sample) [Op.Scan, Op.Scan])).1 = false
      ∧ (Scanner.run Demo.xml (New none Demo.sample) [Op.Scan, Op.Scan, Op.Scan]).Err
          = some (Error.other "XML syntax error")
      ∧ (Scanner.scanAll Demo.xml 6 (New none Demo.sample)).map (fun p => p.1)
          = some [some { kind := Kind.Bounds, val := ([] : List Attr) },
                  some { kind := Kind.Node, val := ([] : List Attr) }]) :=
  ⟨Scanner.scanAll_reference_aux X _ s (Nat.le_refl _) herr hctx n m hn hm,
    rfl, rfl, rfl, rfl, rfl⟩

theorem Scanner.scan_all_eq_reference_witness :
    (New none Demo.sample : Scanner Demo.V).err = none
    ∧ (New none Demo.sample : Scanner Demo.V).ctx.Err = none
    ∧ ∃ s1, Scanner.scanAll Demo.xml 6 (New none Demo.sample) =
        some ((referenceObjects Demo.xml Demo.sample.fin 5 Demo.sample.toks).map some, s1)
      ∧ (s1.Scan Demo.xml).1 = false :=
  ⟨rfl, rfl, (Scanner.scan_all_eq_reference Demo.xml (New none Demo.sample) 6 5 rfl rfl
    (by decide) (by decide)).1⟩

/-- C12. `Close` returns nil; a second `Close` leaves the scanner as the first
left it; and `Close` changes nothing but the closed flag and the context: the
decoder (the tokens still to come and the source behind them), the current
object and the recorded error are as before. -/
theorem Scanner.Close_is_idempotent (s : Scanner V) :
    s.Close.1 = none
    ∧ s.Close.2.Close.1 = none
    ∧ s.Close.2.Close.2 = s.Close.2
    ∧ s.Close.2.decoder = s.decoder
    ∧ s.Close.2.next = s.next
    ∧ s.Close.2.err = s.err
    ∧ s.Close.2.closed = true
    ∧ s.Close.2.ctx.Err ≠ none := by
  refine ⟨rfl, rfl, ?_, rfl, rfl, rfl, rfl, Context.cancelWith_Err_ne_none _ _⟩
  have h : s.ctx.done.done = s.ctx.done :=
    Context.cancelWith_of_Err_ne_none _ _ (Context.cancelWith_Err_ne_none _ _)
  simp [Scanner.Close, h]

theorem Scanner.scanLoop_of_cancelled (X : Xml V) (l : List Token) (s : Scanner V)
    (h : s.ctx.Err ≠ none) : Scanner.scanLoop X l s = (false, s) := by
  cases l <;> simp [Scanner.scanLoop, h]

/-- C13. No reads after cancellation or failure. A `Scan` called with the
context cancelled or an error recorded returns false and leaves the scanner as
it was: no token is pulled from the decoder, and the recorded error, the closed
flag and the current object are unchanged; this holds after `Close` and after a
cancellation of the context. Every iteration of the loop tests the context
before it pulls: entered with a cancelled context, on any remaining input, the
loop returns false without a pull; so a `Scan` that has pulled a token began
with no error recorded and a live context. -/
theorem Scanner.no_reads_once_stopped (X : Xml V) (s : Scanner V) :
    ((s.ctx.Err ≠ none ∨ s.err ≠ none) →
      (s.Scan X).1 = false ∧ (s.Scan X).2.decoder = s.decoder ∧ (s.Scan X).2.err = s.err
        ∧ (s.Scan X).2.closed = s.closed ∧ (s.Scan X).2.next = s.next
        ∧ (s.Scan X).2.ctx = s.ctx)
    ∧ ((s.Close.2.Scan X).1 = false ∧ (s.Close.2.Scan X).2.decoder = s.decoder
        ∧ (s.Close.2.Scan X).2.err = s.err ∧ (s.Close.2.Scan X).2.next = s.next)
    ∧ (∀ e, ((s.step X (Op.Cancel e)).Scan X).1 = false
        ∧ ((s.step X (Op.Cancel e)).Scan X).2.decoder = s.decoder
        ∧ ((s.step X (Op.Cancel e)).Scan X).2.err = s.err
        ∧ ((s.step X (Op.Cancel e)).Scan X).2.closed = s.closed
        ∧ ((s.step X (Op.Cancel e)).Scan X).2.next = s.next)
    ∧ (∀ l : List Token, s.ctx.Err ≠ none → Scanner.scanLoop X l s = (false, s))
    ∧ ((s.Scan X).2.decoder ≠ s.decoder → s.err = none ∧ s.ctx.Err = none) := by
  refine ⟨?_, ?_, ?_, ?_, ?_⟩
  · intro h
    rw [Scanner.Scan_of_stopped X s h.symm]
    exact ⟨rfl, rfl, rfl, rfl, rfl, rfl⟩
  · have hs : s.Close.2.stopped := Or.inr (Context.cancelWith_Err_ne_none _ _)
    rw [Scanner.Scan_of_stopped X _ hs]
    exact ⟨rfl, rfl, rfl, rfl⟩
  · intro e
    have hs : (s.step X (Op.Cancel e)).stopped :=
      Or.inr (Context.cancelWith_Err_ne_none _ _)
    rw [Scanner.Scan_of_stopped X _ hs]
    exact ⟨rfl, rfl, rfl, rfl, rfl⟩
  · intro l h
    exact Scanner.scanLoop_of_cancelled X l s h
  · intro h
    by_contra hn
    have hs : s.stopped := by
      by_cases he : s.err = none
      · right
        intro hc
        exact hn ⟨he, hc⟩
      · exact Or.inl he
    rw [Scanner.Scan_of_stopped X s hs] at h
    exact h rfl

theorem Scanner.no_reads_once_stopped_witness :
    (Demo.afterNode [Demo.start "way", Demo.stop "way"]).Close.2.ctx.Err ≠ none
    ∧ (Scanner.Scan Demo.xml (Demo.afterNode [Demo.start "way", Demo.stop "way"]).Close.2).1
        = false
    ∧ (Scanner.Scan Demo.xml
        (Demo.afterNode [Demo.start "way", Demo.stop "way"]).Close.2).2.decoder.toks
        = [Demo.start "way", Demo.stop "way"] :=
  have h := (Scanner.no_reads_once_stopped Demo.xml
    (Demo.afterNode [Demo.start "way", Demo.stop "way"]).Close.2).1 (Or.inl (by decide))
  ⟨by decide, h.1, congrArg Decoder.toks h.2.1⟩

theorem Scanner.Scan_true_decompose (X : Xml V) (s : Scanner V) (h : (s.Scan X).1 = true) :
    ∃ pre se ts k, s.err = none ∧ s.ctx.Err = none
      ∧ s.decoder.toks = pre ++ Token.StartElement se :: ts
      ∧ (∀ t ∈ pre, skipped X t = true)
      ∧ kindOf (X.ToLower se.Name.Local) = some k
      ∧ (X.DecodeElement k se { toks := ts, fin := s.decoder.fin }).2.1 = none
      ∧ s.Scan X = s.afterDecode X k se ts := by
  obtain ⟨herr, hctx⟩ := Scanner.Scan_true_pulls X s h
  rcases tokens_skipped_or_reach X s.decoder.toks with hsk | ⟨pre, se, ts, k, h1, h2, h3⟩
  · have hf := (Scanner.scanLoop_skipped X s.decoder.toks s hctx hsk).1
    have hS : s.Scan X = Scanner.scanLoop X s.decoder.toks s := by
      simp [Scanner.Scan, herr]
    rw [hS, hf] at h
    exact Bool.noConfusion h
  · have hS := Scanner.Scan_eq_afterDecode X s pre se ts k herr hctx h1 h2 h3
    refine ⟨pre, se, ts, k, herr, hctx, h1, h2, h3, ?_, hS⟩
    rw [hS] at h
    by_cases he : (X.DecodeElement k se { toks := ts, fin := s.decoder.fin }).2.1 = none
    · exact he
    · simp [Scanner.afterDecode, he] at h

/-- C19. Whenever `Scan` returns true, no error is recorded, `Object` is
non-nil, and the tokens `Scan` has pulled are a run of tokens it passes over
followed by one start element of a recognised name, the only element decoded
in the call, after whose decode it returned. Whenever `Scan` returns false, an
error is recorded or the context is cancelled. -/
theorem Scanner.scan_result_invariant (X : Xml V) (s : Scanner V) :
    ((s.Scan X).1 = true →
      (s.Scan X).2.err = none ∧ (s.Scan X).2.Object ≠ none
      ∧ ∃ pre se ts k, s.decoder.toks = pre ++ Token.StartElement se :: ts
          ∧ (∀ t ∈ pre, skipped X t = true)
          ∧ kindOf (X.ToLower se.Name.Local) = some k
          ∧ s.Scan X = s.afterDecode X k se ts
          ∧ (s.Scan X).2.decoder.toks =
              List.drop (X.DecodeElement k se { toks := ts, fin := s.decoder.fin }).2.2 ts)
    ∧ ((s.Scan X).1 = false → (s.Scan X).2.err ≠ none ∨ (s.Scan X).2.ctx.Err ≠ none) := by
  refine ⟨fun h => ?_, fun h => Scanner.Scan_false_stopped X s h⟩
  obtain ⟨pre, se, ts, k, herr, _, h1, h2, h3, he, hS⟩ := Scanner.Scan_true_decompose X s h
  refine ⟨?_, ?_, pre, se, ts, k, h1, h2, h3, hS, ?_⟩
  · rw [hS]; simp [Scanner.afterDecode, he, herr]
  · rw [hS]; simp [Scanner.afterDecode, he, Scanner.Object]
  · rw [hS]; simp [Scanner.afterDecode, he]

theorem Scanner.scan_result_invariant_witness :
    (Scanner.Scan Demo.xml (New none Demo.sample)).1 = true
    ∧ (Scanner.Scan Demo.xml (New none Demo.sample)).2.err = none
    ∧ (Scanner.Scan Demo.xml (New none Demo.sample)).2.Object ≠ none :=
  have h := (Scanner.scan_result_invariant Demo.xml (New none Demo.sample)).1 rfl
  ⟨rfl, h.1, h.2.1⟩

/-- C20. Passing over an unknown element passes over its start token only.
When a start element `inner` of a recognised name lies inside an element
`outer` of an unknown name (only tokens that `Scan` passes over before `outer`
and between the two), `Scan` stops on `inner` and decodes it. What the decode
of `inner` consumes, the elements nested in it included, is not scanned: when
the decode succeeds, `Scan` returns true with the decoded value, the decoder is
left after the tokens the decode consumed, and the objects of the whole scan
are this value followed by those of the tokens after the consumed ones. -/
theorem Scanner.scan_enters_unknown_elements (X : Xml V) (s : Scanner V)
    (pre mid : List Token) (outer inner : StartElement) (ts : List Token) (k : Kind)
    (n m : Nat) (herr : s.err = none) (hctx : s.ctx.Err = none)
    (htoks : s.decoder.toks
      = pre ++ Token.StartElement outer :: (mid ++ Token.StartElement inner :: ts))
    (hpre : ∀ t ∈ pre, skipped X t = true)
    (houter : kindOf (X.ToLower outer.Name.Local) = none)
    (hmid : ∀ t ∈ mid, skipped X t = true)
    (hk : kindOf (X.ToLower inner.Name.Local) = some k)
    (hdec : (X.DecodeElement k inner { toks := ts, fin := s.decoder.fin }).2.1 = none)
    (hn : s.decoder.toks.length < n) (hm : ts.length ≤ m) :
    s.Scan X = s.afterDecode X k inner ts
    ∧ (s.Scan X).1 = true
    ∧ (s.Scan X).2.Object
        = some ⟨k, (X.DecodeElement k inner { toks := ts, fin := s.decoder.fin }).1⟩
    ∧ (s.Scan X).2.decoder.toks
        = List.drop (X.DecodeElement k inner { toks := ts, fin := s.decoder.fin }).2.2 ts
    ∧ ∃ s1, Scanner.scanAll X n s = some
        (some ⟨k, (X.DecodeElement k inner { toks := ts, fin := s.decoder.fin }).1⟩ ::
          (referenceObjects X s.decoder.fin m (List.drop
            (X.DecodeElement k inner { toks := ts, fin := s.decoder.fin }).2.2 ts)).map some,
          s1) := by
  have hskip : ∀ t ∈ pre ++ Token.StartElement outer :: mid, skipped X t = true := by
    intro t ht
    rcases List.mem_append.1 ht with h | h
    · exact hpre t h
    · rcases List.mem_cons.1 h with rfl | h
      · simp [skipped, Token.asStart, houter]
      · exact hmid t h
  have htoks2 : s.decoder.toks
      = (pre ++ Token.StartElement outer :: mid) ++ Token.StartElement inner :: ts := by
    rw [htoks]; simp
  have hS := Scanner.Scan_eq_afterDecode X s _ inner ts k herr hctx htoks2 hskip hk
  refine ⟨hS, ?_, ?_, ?_, ?_⟩
  · rw [hS]; simp [Scanner.afterDecode, hdec]
  · rw [hS]; simp [Scanner.afterDecode, hdec, Scanner.Object]
  · rw [hS]; simp [Scanner.afterDecode, hdec]
  · have hlen : s.decoder.toks.length
        ≤ m + 1 + (pre ++ Token.StartElement outer :: mid).length := by
      rw [htoks2]; simp only [List.length_append, List.length_cons]; omega
    obtain ⟨s1, h1, _⟩ := Scanner.scanAll_reference_aux X _ s (Nat.le_refl _) herr hctx n
      (m + 1 + (pre ++ Token.StartElement outer :: mid).length) hn hlen
    refine ⟨s1, ?_⟩
    rw [h1, htoks2, referenceObjects_reach X _ _ hskip inner ts k hk m]
    simp [hdec]

theorem Scanner.scan_enters_unknown_elements_witness :
    (Scanner.scanAll Demo.xml 9 (New none Demo.nested)).map (fun p => p.1)
      = some [some { kind := Kind.Way, val := ([] : List Attr) },
              some { kind := Kind.Node, val := ([] : List Attr) }]
    ∧ (Scanner.Scan Demo.xml (New none Demo.nested)).2.decoder.toks
      = [Demo.start "node", Demo.stop "node", Demo.stop "osm"]
    ∧ (Scanner.Scan Demo.xml (New none Demo.nested)).1 = true :=
  have h := Scanner.scan_enters_unknown_elements Demo.xml (New none Demo.nested) [] []
    { Name := { Space := "", Local := "osm" }, Attr := [] }
    { Name := { Space := "", Local := "way" }, Attr := [] }
    [Demo.start "node", Demo.stop "node", Demo.stop "way", Demo.start "node",
      Demo.stop "node", Demo.stop "osm"]
    Kind.Way 9 6 rfl rfl rfl (by decide) (by decide) (by decide) (by decide) rfl
    (by decide) (by decide)
  ⟨rfl, rfl, h.2.1⟩

/-- C11 (as amended). `Err` returns nil when the recorded error is `io.EOF`;
otherwise the recorded error when there is one; otherwise `ErrScannerClosed`
when `Close` was called; otherwise the error of the context. A recorded error
is never replaced, so a recorded error other than `io.EOF` is what `Err`
returns ever after. When a `Scan` has returned false with no error recorded
(the context was cancelled) and `Close` has not been called, `Err` returns the
error of the context, which is non-nil. -/
theorem Scanner.Err_is_first_error (X : Xml V) (s : Scanner V) (ops : List Op) :
    (s.err = some Error.EOF → s.Err = none)
    ∧ (∀ e, s.err = some e → e ≠ Error.EOF → s.Err = some e)
    ∧ (s.err = none → s.closed = true → s.Err = some Error.ErrScannerClosed)
    ∧ (s.err = none → s.closed = false → s.Err = s.ctx.Err)
    ∧ (∀ e, s.err = some e → (s.run X ops).err = some e)
    ∧ (∀ e, s.err = some e → e ≠ Error.EOF → (s.run X ops).Err = some e)
    ∧ ((s.Scan X).1 = false → (s.Scan X).2.err = none → (s.Scan X).2.closed = false →
        (s.Scan X).2.Err = (s.Scan X).2.ctx.Err ∧ (s.Scan X).2.ctx.Err ≠ none) := by
  have hrun : ∀ e, s.err = some e → (s.run X ops).err = some e := by
    intro e he
    have hst : s.stopped := Or.inl (by simp [he])
    rw [(Scanner.run_frame_of_stopped X ops s hst).1, he]
  refine ⟨?_, ?_, ?_, ?_, hrun, ?_, ?_⟩
  · intro h
    simp [Scanner.Err, h]
  · intro e h hne
    simp [Scanner.Err, h, hne]
  · intro h hc
    simp [Scanner.Err, h, hc]
  · intro h hc
    simp [Scanner.Err, h, hc]
  · intro e h hne
    simp [Scanner.Err, hrun e h, hne]
  · intro hf he hc
    refine ⟨by simp [Scanner.Err, he, hc], ?_⟩
    rcases Scanner.Scan_false_stopped X s hf with h | h
    · exact absurd he h
    · exact h

theorem Scanner.Err_is_first_error_witness :
    (Scanner.Scan Demo.xml
      (New (some (Context.mk (some Error.Canceled))) Demo.sample)).2.Err = some Error.Canceled
    ∧ (Scanner.Scan Demo.xml
      (New (some (Context.mk (some Error.Canceled))) Demo.sample)).2.ctx.Err ≠ none :=
  (Scanner.Err_is_first_error Demo.xml
    (New (some (Context.mk (some Error.Canceled))) Demo.sample) []).2.2.2.2.2.2 rfl rfl rfl

/-- C11, the claim as stated fails. The context is cancelled from outside with
`context.DeadlineExceeded` and the scanner is then closed; `Scan` returns false
at the test of the context, with no error recorded; the error of the context
is `context.DeadlineExceeded`, and `Err` returns `ErrScannerClosed`. -/
theorem Scanner.Err_after_Close_is_not_context_error :
    (Scanner.Scan Demo.xml Demo.cancelledThenClosed).1 = false
    ∧ (Scanner.Scan Demo.xml Demo.cancelledThenClosed).2.err = none
    ∧ (Scanner.Scan Demo.xml Demo.cancelledThenClosed).2.ctx.Err
        = some Error.DeadlineExceeded
    ∧ (Scanner.Scan Demo.xml Demo.cancelledThenClosed).2.Err = some Error.ErrScannerClosed
    ∧ (Scanner.Scan Demo.xml Demo.cancelledThenClosed).2.Err
        ≠ (Scanner.Scan Demo.xml Demo.cancelledThenClosed).2.ctx.Err := by
  refine ⟨rfl, rfl, rfl, rfl, ?_⟩
  decide

theorem Scanner.scanLoop_nonstart (X : Xml V) :
    ∀ (l : List Token) (s : Scanner V), (∀ t ∈ l, t.asStart = none) →
      (Scanner.scanLoop X l s).1 = false ∧ (Scanner.scanLoop X l s).2.next = s.next
  | [], s, _ => by
    by_cases hc : s.ctx.Err = none
    · simp [Scanner.scanLoop, hc]
    · simp [Scanner.scanLoop, hc]
  | t :: ts, s, hl => by
    have ht : t.asStart = none := hl t (List.mem_cons_self _ _)
    have hts : ∀ u ∈ ts, u.asStart = none := fun u hu => hl u (List.mem_cons_of_mem _ hu)
    by_cases hc : s.ctx.Err = none
    · simp only [Scanner.scanLoop, hc, ne_eq, not_true_eq_false, if_false, ht]
      exact Scanner.scanLoop_nonstart X ts _ hts
    · simp [Scanner.scanLoop, hc]

theorem Scanner.scanLoop_skipped_next (X : Xml V) :
    ∀ (l : List Token) (s : Scanner V), s.ctx.Err = none → (∀ t ∈ l, skipped X t = true) →
      (s.next = none ∨ ∃ t ∈ l, t.asStart ≠ none) → (Scanner.scanLoop X l s).2.next = none
  | [], s, hc, _, hn => by
    rcases hn with hn | ⟨t, ht, _⟩
    · simp [Scanner.scanLoop, hc, hn]
    · simp at ht
  | t :: ts, s, hc, hl, hn => by
    have ht : skipped X t = true := hl t (List.mem_cons_self _ _)
    have hts : ∀ u ∈ ts, skipped X u = true := fun u hu => hl u (List.mem_cons_of_mem _ hu)
    simp only [Scanner.scanLoop, hc, ne_eq, not_true_eq_false, if_false]
    unfold skipped at ht
    cases hs : t.asStart with
    | none =>
      simp only [hs]
      refine Scanner.scanLoop_skipped_next X ts _ hc hts ?_
      rcases hn with hn | ⟨u, hu, hus⟩
      · exact Or.inl hn
      · rcases List.mem_cons.1 hu with rfl | hu
        · exact absurd hs hus
        · exact Or.inr ⟨u, hu, hus⟩
    | some se =>
      simp only [hs] at ht ⊢
      cases hk : kindOf (X.ToLower se.Name.Local) with
      | none =>
        simp only [hk]
        exact Scanner.scanLoop_skipped_next X ts _ hc hts (Or.inl rfl)
      | some k => simp [hk] at ht

/-- C14 (as amended). `Object` is total: it returns the current object of the
scanner, nil for a new scanner. After a `Scan` that returned true it is the
value decoded by that `Scan`. `Object`, `Err`, `Close` and a cancellation leave
it as it is, and so does a `Scan` that returns false without pulling a start
element: one called with an error recorded or the context cancelled, or one
that meets only tokens that are not start elements. A `Scan` that pulls a
start element resets the current object first: when it then meets only start
elements of unknown names before the pull fails, `Object` is nil. -/
theorem Scanner.Object_is_current_object (X : Xml V) (s : Scanner V) :
    (∀ (ctx : Option Context) (r : Decoder), (New ctx r : Scanner V).Object = none)
    ∧ ((s.Scan X).1 = true →
        ∃ pre se ts k, s.decoder.toks = pre ++ Token.StartElement se :: ts
          ∧ (∀ t ∈ pre, skipped X t = true)
          ∧ kindOf (X.ToLower se.Name.Local) = some k
          ∧ (X.DecodeElement k se { toks := ts, fin := s.decoder.fin }).2.1 = none
          ∧ (s.Scan X).2.Object =
              some ⟨k, (X.DecodeElement k se { toks := ts, fin := s.decoder.fin }).1⟩)
    ∧ (∀ op, op ≠ Op.Scan → (s.step X op).Object = s.Object)
    ∧ ((s.err ≠ none ∨ s.ctx.Err ≠ none) →
        (s.Scan X).1 = false ∧ (s.Scan X).2.Object = s.Object)
    ∧ ((∀ t ∈ s.decoder.toks, t.asStart = none) →
        (s.Scan X).1 = false ∧ (s.Scan X).2.Object = s.Object)
    ∧ (s.err = none → s.ctx.Err = none → (∀ t ∈ s.decoder.toks, skipped X t = true) →
        (∃ t ∈ s.decoder.toks, t.asStart ≠ none) →
        (s.Scan X).1 = false ∧ (s.Scan X).2.Object = none) := by
  refine ⟨fun _ _ => rfl, ?_, ?_, ?_, ?_, ?_⟩
  · intro h
    obtain ⟨pre, se, ts, k, _, _, h1, h2, h3, he, hS⟩ := Scanner.Scan_true_decompose X s h
    refine ⟨pre, se, ts, k, h1, h2, h3, he, ?_⟩
    rw [hS]; simp [Scanner.afterDecode, he, Scanner.Object]
  · intro op hop
    cases op with
    | Scan => exact absurd rfl hop
    | Object => rfl
    | Err => rfl
    | Close => rfl
    | Cancel e => rfl
  · intro h
    rw [Scanner.Scan_of_stopped X s h]
    exact ⟨rfl, rfl⟩
  · intro h
    by_cases he : s.err = none
    · have hS : s.Scan X = Scanner.scanLoop X s.decoder.toks s := by
        simp [Scanner.Scan, he]
      rw [hS]
      exact Scanner.scanLoop_nonstart X _ s h
    · rw [Scanner.Scan_of_stopped X s (Or.inl he)]
      exact ⟨rfl, rfl⟩
  · intro he hc hsk hst
    have hS : s.Scan X = Scanner.scanLoop X s.decoder.toks s := by
      simp [Scanner.Scan, he]
    rw [hS]
    exact ⟨(Scanner.scanLoop_skipped X _ s hc hsk).1,
      Scanner.scanLoop_skipped_next X _ s hc hsk (Or.inr hst)⟩

theorem Scanner.Object_is_current_object_witness :
    (Demo.afterNode [Token.CharData "\n", Token.Comment "end"]).Object
      = some { kind := Kind.Node, val := ([] : List Attr) }
    ∧ (Scanner.Scan Demo.xml (Demo.afterNode [Token.CharData "\n", Token.Comment "end"])).1
      = false
    ∧ (Scanner.Scan Demo.xml
        (Demo.afterNode [Token.CharData "\n", Token.Comment "end"])).2.Object
      = (Demo.afterNode [Token.CharData "\n", Token.Comment "end"]).Object :=
  have h := (Scanner.Object_is_current_object Demo.xml
    (Demo.afterNode [Token.CharData "\n", Token.Comment "end"])).2.2.2.2.1 (by decide)
  ⟨rfl, h.1, h.2⟩

/-- C14, the claim as stated fails. After a successful `Scan` over
`<node></node>`, `Object` is the node. A second `Scan` over `<osm></osm>` and
the end of input returns false and leaves `Object` nil; a second `Scan` over
`<way>` cut short returns false on the decode error and leaves `Object` the
value of kind way that the failed decode was filling. In both, `Object` is not
what it was before the `Scan` that returned false. -/
theorem Scanner.false_scan_changes_object :
    (Demo.afterNode [Demo.start "osm", Demo.stop "osm"]).Object
      = some { kind := Kind.Node, val := ([] : List Attr) }
    ∧ (Scanner.Scan Demo.xml (Demo.afterNode [Demo.start "osm", Demo.stop "osm"])).1 = false
    ∧ (Scanner.Scan Demo.xml (Demo.afterNode [Demo.start "osm", Demo.stop "osm"])).2.Object
      = none
    ∧ (Scanner.Scan Demo.xml (Demo.afterNode [Demo.start "osm", Demo.stop "osm"])).2.Object
      ≠ (Demo.afterNode [Demo.start "osm", Demo.stop "osm"]).Object
    ∧ (Demo.afterNode [Demo.start "way", Token.CharData "x"]).Object
      = some { kind := Kind.Node, val := ([] : List Attr) }
    ∧ (Scanner.Scan Demo.xml (Demo.afterNode [Demo.start "way", Token.CharData "x"])).1 = false
    ∧ (Scanner.Scan Demo.xml (Demo.afterNode [Demo.start "way", Token.CharData "x"])).2.Object
      = some { kind := Kind.Way, val := ([] : List Attr) }
    ∧ (Scanner.Scan Demo.xml (Demo.afterNode [Demo.start "way", Token.CharData "x"])).2.Object
      ≠ (Demo.afterNode [Demo.start "way", Token.CharData "x"]).Object := by
  have a1 : (Demo.afterNode [Demo.start "osm", Demo.stop "osm"]).Object
      = some { kind := Kind.Node, val := ([] : List Attr) } := rfl
  have a2 : (Scanner.Scan Demo.xml
      (Demo.afterNode [Demo.start "osm", Demo.stop "osm"])).2.Object = none := rfl
  have b1 : (Demo.afterNode [Demo.start "way", Token.CharData "x"]).Object
      = some { kind := Kind.Node, val := ([] : List Attr) } := rfl
  have b2 : (Scanner.Scan Demo.xml
      (Demo.afterNode [Demo.start "way", Token.CharData "x"])).2.Object
      = some { kind := Kind.Way, val := ([] : List Attr) } := rfl
  refine ⟨a1, rfl, a2, ?_, b1, rfl, b2, ?_⟩
  · rw [a1, a2]
    exact fun h => Option.noConfusion h
  · rw [b1, b2]
    intro h
    have hk := congrArg (fun o : Option (Osm.Object Demo.V) => o.map Object.kind) h
    exact absurd hk (by decide)

theorem Scanner.scanIter_eq_scanLoop (X : Xml V) :
    ∀ (l : List Token) (s : Scanner V) (n : Nat), s.decoder.toks = l → l.length < n →
      Scanner.scanIter X n s = some (Scanner.scanLoop X l s)
  | [], s, n, hl, hn => by
    obtain ⟨n, rfl⟩ : ∃ n1, n = n1 + 1 := ⟨n - 1, by omega⟩
    by_cases hc : s.ctx.Err = none
    · simp [Scanner.scanIter, Scanner.scanLoop, hc, Decoder.Token, hl]
    · simp [Scanner.scanIter, Scanner.scanLoop, hc]
  | t :: ts, s, n, hl, hn => by
    obtain ⟨n, rfl⟩ : ∃ n1, n = n1 + 1 := ⟨n - 1, by omega⟩
    have hn2 : ts.length < n := by simpa using hn
    by_cases hc : s.ctx.Err = none
    · simp only [Scanner.scanIter, Scanner.scanLoop, hc, Decoder.Token, hl, ne_eq,
        not_true_eq_false, if_false]
      cases hs : t.asStart with
      | none =>
        simp only []
        exact Scanner.scanIter_eq_scanLoop X ts _ n rfl hn2
      | some se =>
        simp only []
        cases hk : kindOf (X.ToLower se.Name.Local) with
        | none =>
          simp only []
          exact Scanner.scanIter_eq_scanLoop X ts _ n rfl hn2
        | some k =>
          simp only []
          by_cases he : (X.DecodeElement k se { toks := ts, fin := s.decoder.fin }).2.1 = none
          · simp [he]
          · simp [he]
    · simp [Scanner.scanIter, Scanner.scanLoop, hc]

theorem Scanner.scanLoop_suffix (X : Xml V) :
    ∀ (l : List Token) (s : Scanner V), s.decoder.toks = l →
      ∃ pulled, l = pulled ++ (Scanner.scanLoop X l s).2.decoder.toks
  | [], s, hl => ⟨[], by
      by_cases hc : s.ctx.Err = none
      · simp [Scanner.scanLoop, hc, hl]
      · simp [Scanner.scanLoop, hc, hl]⟩
  | t :: ts, s, hl => by
    by_cases hc : s.ctx.Err = none
    · simp only [Scanner.scanLoop, hc, ne_eq, not_true_eq_false, if_false]
      cases hs : t.asStart with
      | none =>
        simp only []
        obtain ⟨p, hp⟩ := Scanner.scanLoop_suffix X ts
          { s with decoder := { s.decoder with toks := ts } } rfl
        exact ⟨t :: p, by rw [List.cons_append, ← hp]⟩
      | some se =>
        simp only []
        cases hk : kindOf (X.ToLower se.Name.Local) with
        | none =>
          simp only []
          obtain ⟨p, hp⟩ := Scanner.scanLoop_suffix X ts
            { s with decoder := { s.decoder with toks := ts }, next := none } rfl
          exact ⟨t :: p, by rw [List.cons_append, ← hp]⟩
        | some k =>
          simp only []
          refine ⟨t :: List.take
            (X.DecodeElement k se { toks := ts, fin := s.decoder.fin }).2.2 ts, ?_⟩
          by_cases he : (X.DecodeElement k se { toks := ts, fin := s.decoder.fin }).2.1 = none
          · simp [he]
          · simp [he]
    · exact ⟨[], by simp [Scanner.scanLoop, hc, hl]⟩

/-- C18. `Scan` terminates on finite input. The loop of `Scan`, run as it is
written with one `Token()` call for each iteration, returns within one more
iteration than there are tokens left (any larger number of iterations gives the
same), with the result of `Scan`; and the tokens `Scan` leaves in the decoder
are a final part of those it found, so what it and the decode have pulled is
at most what remained. -/
theorem Scanner.Scan_terminates (X : Xml V) (s : Scanner V) (n : Nat)
    (hn : s.decoder.toks.length < n) :
    Scanner.ScanIter X n s = some (s.Scan X)
    ∧ Scanner.ScanIter X (s.decoder.toks.length + 1) s = some (s.Scan X)
    ∧ (∃ pulled, s.decoder.toks = pulled ++ (s.Scan X).2.decoder.toks)
    ∧ (s.Scan X).2.decoder.toks.length ≤ s.decoder.toks.length := by
  have h1 : ∀ k, s.decoder.toks.length < k → Scanner.ScanIter X k s = some (s.Scan X) := by
    intro k hk
    unfold Scanner.ScanIter Scanner.Scan
    by_cases he : s.err = none
    · simp only [he, ne_eq, not_true_eq_false, if_false]
      exact Scanner.scanIter_eq_scanLoop X _ s k rfl hk
    · simp [he]
  have h2 : ∃ pulled, s.decoder.toks = pulled ++ (s.Scan X).2.decoder.toks := by
    unfold Scanner.Scan
    by_cases he : s.err = none
    · simp only [he, ne_eq, not_true_eq_false, if_false]
      exact Scanner.scanLoop_suffix X _ s rfl
    · exact ⟨[], by simp [he]⟩
  refine ⟨h1 n hn, h1 _ (Nat.lt_succ_self _), h2, ?_⟩
  obtain ⟨p, hp⟩ := h2
  have := congrArg List.length hp
  rw [List.length_append] at this
  omega

theorem Scanner.Scan_terminates_witness :
    Scanner.ScanIter Demo.xml 4
        (Demo.afterNode [Token.CharData "\n", Demo.start "osm", Demo.stop "osm"])
      = some (Scanner.Scan Demo.xml
        (Demo.afterNode [Token.CharData "\n", Demo.start "osm", Demo.stop "osm"]))
    ∧ Scanner.ScanIter Demo.xml 3
        (Demo.afterNode [Token.CharData "\n", Demo.start "osm", Demo.stop "osm"]) = none :=
  ⟨(Scanner.Scan_terminates Demo.xml
    (Demo.afterNode [Token.CharData "\n", Demo.start "osm", Demo.stop "osm"]) 4
    (by decide)).1, rfl⟩

end ScannerTheorems

/-! ## Theorems: the Change codec -/

section CodecTheorems

variable {OSM PbOSM Changeset SS : Type}

theorem unmarshalChange_ok (D : Delegates OSM PbOSM Changeset SS) (m : PbChange PbOSM)
    (ss : List String) (cs : Option Changeset) (o1 o2 o3 : Option OSM)
    (h1 : D.unmarshalOSM m.Create ss cs = (o1, none))
    (h2 : D.unmarshalOSM m.Modify ss cs = (o2, none))
    (h3 : D.unmarshalOSM m.Delete ss cs = (o3, none)) :
    unmarshalChange D m ss cs = (some { Create := o1, Modify := o2, Delete := o3 }, none) := by
  simp [unmarshalChange, h1, h2, h3]

/-- C1. Round trip. For a non-nil change `c`, let `e1`, `e2`, `e3` be the
encodings `marshalOSM` gives for Create, Modify and Delete, in this order on
one string set, and `ss3` the string set after the three. When the serializer
round-trips the message made of them and of the strings of `ss3`, and
`unmarshalOSM` gives back each partition from its encoding against these same
strings, `UnmarshalChange` of the bytes of `c.Marshal()` returns a nil error
and `c` itself: each partition as it was, absent, empty or populated. -/
theorem Change.marshal_unmarshal_roundtrip (D : Delegates OSM PbOSM Changeset SS)
    (c : Change OSM) (e1 e2 e3 : Option PbOSM) (ss1 ss2 ss3 : SS) (data : List UInt8)
    (h1 : D.marshalOSM c.Create D.newStringSet true = (e1, ss1))
    (h2 : D.marshalOSM c.Modify ss1 true = (e2, ss2))
    (h3 : D.marshalOSM c.Delete ss2 true = (e3, ss3))
    (hser : D.protoMarshal { Create := e1, Modify := e2, Delete := e3, Strings := D.Strings ss3 }
      = (data, none))
    (hpar : D.protoUnmarshal data
      = ({ Create := e1, Modify := e2, Delete := e3, Strings := D.Strings ss3 }, none))
    (r1 : D.unmarshalOSM e1 (D.Strings ss3) none = (c.Create, none))
    (r2 : D.unmarshalOSM e2 (D.Strings ss3) none = (c.Modify, none))
    (r3 : D.unmarshalOSM e3 (D.Strings ss3) none = (c.Delete, none)) :
    Change.Marshal D (some c) = some (data, none)
      ∧ UnmarshalChange D data = (some c, none) := by
  constructor
  · simp [Change.Marshal, marshalChange, h1, h2, h3, hser]
  · simp only [UnmarshalChange, hpar, PbChange.GetStrings, ne_eq, not_true_eq_false, if_false]
    rw [unmarshalChange_ok D _ _ none c.Create c.Modify c.Delete r1 r2 r3]

theorem Change.marshal_unmarshal_roundtrip_witness :
    Change.Marshal Demo.delegates (some Demo.change)
      = some ([1, 3, 0, 1, 0, 1, 0, 0, 2, 7, 104, 105, 103, 104, 119, 97, 121,
          8, 99, 114, 111, 115, 115, 105, 110, 103], none)
    ∧ UnmarshalChange Demo.delegates [1, 3, 0, 1, 0, 1, 0, 0, 2, 7, 104, 105, 103, 104, 119, 97,
          121, 8, 99, 114, 111, 115, 115, 105, 110, 103]
      = (some { Create := some ["highway", "crossing", "highway"], Modify := some [],
                Delete := none }, none) :=
  Change.marshal_unmarshal_roundtrip Demo.delegates Demo.change
    (some [0, 1, 0]) (some []) none ["highway", "crossing"] ["highway", "crossing"]
    ["highway", "crossing"]
    [1, 3, 0, 1, 0, 1, 0, 0, 2, 7, 104, 105, 103, 104, 119, 97, 121,
      8, 99, 114, 111, 115, 115, 105, 110, 103]
    (by decide) (by decide) (by decide) (by decide) (by decide) (by decide) (by decide)
    (by decide)

/-- C7. `UnmarshalChange` never yields a partial change: it returns either a
change and a nil error, or a nil change and a non-nil error. When the bytes do
not parse it returns the parse error, whatever `unmarshalOSM` is. Otherwise the
error it returns is that of the first partition, in the order Create, Modify,
Delete, whose decode fails, as the decode reported it and whatever
`unmarshalOSM` does on the later partitions; and when none fails it returns the
three decoded partitions. Here `m` and `pe` are the message and the error that
`proto.Unmarshal` leaves for `data`. -/
theorem UnmarshalChange_all_or_error (D : Delegates OSM PbOSM Changeset SS)
    (data : List UInt8) (m : PbChange PbOSM) (pe : Option Error)
    (hp : D.protoUnmarshal data = (m, pe)) :
    ((∃ c, UnmarshalChange D data = (some c, none))
      ∨ (∃ e, UnmarshalChange D data = (none, some e)))
    ∧ (∀ e, pe = some e →
        ∀ u, UnmarshalChange (D.withUnmarshalOSM u) data = (none, some e))
    ∧ (pe = none → ∀ e, (D.unmarshalOSM m.Create m.Strings none).2 = some e →
        ∀ u, u m.Create m.Strings none = D.unmarshalOSM m.Create m.Strings none →
          UnmarshalChange (D.withUnmarshalOSM u) data = (none, some e))
    ∧ (pe = none → (D.unmarshalOSM m.Create m.Strings none).2 = none →
        ∀ e, (D.unmarshalOSM m.Modify m.Strings none).2 = some e →
        ∀ u, u m.Create m.Strings none = D.unmarshalOSM m.Create m.Strings none →
          u m.Modify m.Strings none = D.unmarshalOSM m.Modify m.Strings none →
          UnmarshalChange (D.withUnmarshalOSM u) data = (none, some e))
    ∧ (pe = none → (D.unmarshalOSM m.Create m.Strings none).2 = none →
        (D.unmarshalOSM m.Modify m.Strings none).2 = none →
        ∀ e, (D.unmarshalOSM m.Delete m.Strings none).2 = some e →
          UnmarshalChange D data = (none, some e))
    ∧ (pe = none → (D.unmarshalOSM m.Create m.Strings none).2 = none →
        (D.unmarshalOSM m.Modify m.Strings none).2 = none →
        (D.unmarshalOSM m.Delete m.Strings none).2 = none →
          UnmarshalChange D data = (some
            { Create := (D.unmarshalOSM m.Create m.Strings none).1,
              Modify := (D.unmarshalOSM m.Modify m.Strings none).1,
              Delete := (D.unmarshalOSM m.Delete m.Strings none).1 }, none)) := by
  refine ⟨?_, ?_, ?_, ?_, ?_, ?_⟩
  · unfold UnmarshalChange unmarshalChange
    simp only [hp, PbChange.GetStrings]
    cases pe with
    | some e => exact Or.inr ⟨e, by simp⟩
    | none =>
      simp only [ne_eq, not_true_eq_false, if_false]
      cases hc : (D.unmarshalOSM m.Create m.Strings none).2 with
      | some e => exact Or.inr ⟨e, by simp⟩
      | none =>
        simp only [not_true_eq_false, if_false]
        cases hm : (D.unmarshalOSM m.Modify m.Strings none).2 with
        | some e => exact Or.inr ⟨e, by simp⟩
        | none =>
          simp only [not_true_eq_false, if_false]
          cases hd : (D.unmarshalOSM m.Delete m.Strings none).2 with
          | some e => exact Or.inr ⟨e, by simp⟩
          | none => exact Or.inl ⟨_, rfl⟩
  · intro e he u
    simp [UnmarshalChange, Delegates.withUnmarshalOSM, hp, he]
  · intro he e hc u hu
    simp [UnmarshalChange, unmarshalChange, Delegates.withUnmarshalOSM, hp, he,
      PbChange.GetStrings, hu, hc]
  · intro he hc e hm u hu1 hu2
    simp [UnmarshalChange, unmarshalChange, Delegates.withUnmarshalOSM, hp, he,
      PbChange.GetStrings, hu1, hu2, hc, hm]
  · intro he hc hm e hd
    simp [UnmarshalChange, unmarshalChange, hp, he, PbChange.GetStrings, hc, hm, hd]
  · intro he hc hm hd
    simp [UnmarshalChange, unmarshalChange, hp, he, PbChange.GetStrings, hc, hm, hd]

theorem UnmarshalChange_all_or_error_witness :
    Demo.delegates.protoUnmarshal [1, 1, 0, 1, 2, 5, 0, 0, 1, 1, 97]
      = ({ Create := some [0], Modify := some [5, 0], Delete := none, Strings := ["a"] }, none)
    ∧ UnmarshalChange Demo.delegates [1, 1, 0, 1, 2, 5, 0, 0, 1, 1, 97]
      = (none, some (Error.other "string index out of range")) :=
  ⟨by decide, (UnmarshalChange_all_or_error Demo.delegates [1, 1, 0, 1, 2, 5, 0, 0, 1, 1, 97]
    { Create := some [0], Modify := some [5, 0], Delete := none, Strings := ["a"] } none
    (by decide)).2.2.2.1 rfl (by decide) (Error.other "string index out of range") (by decide)
    Demo.delegates.unmarshalOSM rfl rfl⟩

/-- C17. `marshalChange` returns nil exactly when the change it is given is
nil. So `Marshal` panics on the assignment of `Strings` exactly when its
receiver is nil, and for a non-nil receiver, whatever its partitions are, it
reaches the serializer. -/
theorem marshalChange_nil_iff (D : Delegates OSM PbOSM Changeset SS) (c : Option (Change OSM))
    (ss : SS) (includeChangeset : Bool) :
    ((marshalChange D c ss includeChangeset).1 = none ↔ c = none)
    ∧ (Change.Marshal D c = none ↔ c = none)
    ∧ ((∃ m, Change.Marshal D c = some (D.protoMarshal m)) ↔ c ≠ none) := by
  cases c with
  | none => simp [marshalChange, Change.Marshal]
  | some c0 => simp [marshalChange, Change.Marshal]

theorem Demo.mem_intern (x str : String) (ss : List String) (h : x ∈ ss) :
    x ∈ (Demo.intern str ss).2 := by
  unfold Demo.intern
  split
  · exact h
  · exact List.mem_append_left _ h

theorem Demo.mem_internAll (x : String) :
    ∀ (l ss : List String), x ∈ ss → x ∈ (Demo.internAll l ss).2
  | [], _, h => h
  | str :: rest, ss, h => by
    simp only [Demo.internAll]
    exact Demo.mem_internAll x rest _ (Demo.mem_intern x str ss h)

theorem Demo.delegates_monotone (o : Option (List String)) (ss : List String) (b : Bool)
    (x : String) (h : x ∈ Demo.delegates.Strings ss) :
    x ∈ Demo.delegates.Strings (Demo.delegates.marshalOSM o ss b).2 := by
  cases o with
  | none => exact h
  | some l => exact Demo.mem_internAll x l ss h

/-- C16. `Marshal` starts from a fresh string set, encodes Create, then Modify,
then Delete on it with `includeChangeset = true`, each call of `marshalOSM`
taking the string set the call before has left, and hands the serializer the
three encodings together with the strings of the set after the third. When
`marshalOSM` only adds strings to the set, every string that is in the set
after any of the three calls is among the emitted strings. -/
theorem Change.Marshal_shares_one_table (D : Delegates OSM PbOSM Changeset SS)
    (c : Change OSM) (e1 e2 e3 : Option PbOSM) (ss1 ss2 ss3 : SS)
    (h1 : D.marshalOSM c.Create D.newStringSet true = (e1, ss1))
    (h2 : D.marshalOSM c.Modify ss1 true = (e2, ss2))
    (h3 : D.marshalOSM c.Delete ss2 true = (e3, ss3))
    (hmono : ∀ (o : Option OSM) (ss : SS) (b : Bool) (x : String),
      x ∈ D.Strings ss → x ∈ D.Strings (D.marshalOSM o ss b).2) :
    Change.Marshal D (some c) = some (D.protoMarshal
        { Create := e1, Modify := e2, Delete := e3, Strings := D.Strings ss3 })
    ∧ marshalChange D (some c) D.newStringSet true
        = (some { Create := e1, Modify := e2, Delete := e3, Strings := [] }, ss3)
    ∧ (∀ x, x ∈ D.Strings D.newStringSet ∨ x ∈ D.Strings ss1 ∨ x ∈ D.Strings ss2
          ∨ x ∈ D.Strings ss3 → x ∈ D.Strings ss3) := by
  refine ⟨?_, ?_, ?_⟩
  · simp [Change.Marshal, marshalChange, h1, h2, h3]
  · simp [marshalChange, h1, h2, h3]
  · have m1 : ∀ x, x ∈ D.Strings D.newStringSet → x ∈ D.Strings ss1 := by
      intro x hx
      have := hmono c.Create D.newStringSet true x hx
      rwa [h1] at this
    have m2 : ∀ x, x ∈ D.Strings ss1 → x ∈ D.Strings ss2 := by
      intro x hx
      have := hmono c.Modify ss1 true x hx
      rwa [h2] at this
    have m3 : ∀ x, x ∈ D.Strings ss2 → x ∈ D.Strings ss3 := by
      intro x hx
      have := hmono c.Delete ss2 true x hx
      rwa [h3] at this
    rintro x (hx | hx | hx | hx)
    · exact m3 x (m2 x (m1 x hx))
    · exact m3 x (m2 x hx)
    · exact m3 x hx
    · exact hx

theorem Change.Marshal_shares_one_table_witness :
    Change.Marshal Demo.delegates
        (some { Create := some ["highway"], Modify := some ["source", "highway"],
                Delete := some ["name"] })
      = some (Demo.delegates.protoMarshal
          { Create := some [0], Modify := some [1, 0], Delete := some [2],
            Strings := ["highway", "source", "name"] }) :=
  (Change.Marshal_shares_one_table Demo.delegates
    { Create := some ["highway"], Modify := some ["source", "highway"],
      Delete := some ["name"] }
    (some [0]) (some [1, 0]) (some [2]) ["highway"] ["highway", "source"]
    ["highway", "source", "name"] (by decide) (by decide) (by decide)
    Demo.delegates_monotone).1

end CodecTheorems

/-! ## Theorems: the sort of a tag list -/

section TagTheorems

theorem codePoints_injective : Function.Injective codePoints := by
  intro s t h
  apply String.ext
  have hinj : Function.Injective Char.toNat := by
    intro a b hab
    apply Char.ext
    apply UInt32.ext
    exact hab
  exact (List.map_injective_iff.2 hinj) h

theorem codesLess_asymm : ∀ l r : List Nat, codesLess l r = true → codesLess r l = false
  | [], [], h => by simp [codesLess] at h
  | [], _ :: _, _ => by simp [codesLess]
  | _ :: _, [], h => by simp [codesLess] at h
  | a :: l, b :: r, h => by
    simp only [codesLess] at h ⊢
    by_cases h1 : a < b
    · have h2 : ¬ b < a := by omega
      simp [h2, h1]
    · by_cases h2 : b < a
      · simp [h1, h2] at h
      · simp only [h1, h2, if_false] at h ⊢
        exact codesLess_asymm l r h

theorem codesLess_trichotomy : ∀ l r : List Nat,
    codesLess l r = true ∨ l = r ∨ codesLess r l = true
  | [], [] => Or.inr (Or.inl rfl)
  | [], _ :: _ => Or.inl (by simp [codesLess])
  | _ :: _, [] => Or.inr (Or.inr (by simp [codesLess]))
  | a :: l, b :: r => by
    simp only [codesLess]
    by_cases h1 : a < b
    · left; simp [h1]
    · by_cases h2 : b < a
      · right; right; simp [h2]
      · have hab : a = b := by omega
        subst hab
        simp only [h1, if_false]
        rcases codesLess_trichotomy l r with h | h | h
        · exact Or.inl h
        · exact Or.inr (Or.inl (by rw [h]))
        · exact Or.inr (Or.inr h)

theorem codesLess_trans : ∀ l m r : List Nat,
    codesLess l m = true → codesLess m r = true → codesLess l r = true
  | [], [], _, h, _ => by simp [codesLess] at h
  | [], _ :: _, [], _, h => by simp [codesLess] at h
  | [], _ :: _, _ :: _, _, _ => by simp [codesLess]
  | _ :: _, [], _, h, _ => by simp [codesLess] at h
  | _ :: _, _ :: _, [], _, h => by simp [codesLess] at h
  | a :: l, b :: m, c :: r, h1, h2 => by
    simp only [codesLess] at h1 h2 ⊢
    by_cases hab : a < b
    · by_cases hbc : b < c
      · have : a < c := by omega
        simp [this]
      · by_cases hcb : c < b
        · simp [hbc, hcb] at h2
        · have : a < c := by omega
          simp [this]
    · by_cases hba : b < a
      · simp [hab, hba] at h1
      · simp only [hab, hba, if_false] at h1
        have e : a = b := by omega
        subst e
        by_cases hbc : a < c
        · simp [hbc]
        · by_cases hcb : c < a
          · simp [hbc, hcb] at h2
          · simp only [hbc, hcb, if_false] at h2 ⊢
            exact codesLess_trans l m r h1 h2

theorem strLess_asymm (s t : String) (h : strLess s t = true) : strLess t s = false :=
  codesLess_asymm _ _ h

theorem strLess_trichotomy (s t : String) : strLess s t = true ∨ s = t ∨ strLess t s = true := by
  rcases codesLess_trichotomy (codePoints s) (codePoints t) with h | h | h
  · exact Or.inl h
  · exact Or.inr (Or.inl (codePoints_injective h))
  · exact Or.inr (Or.inr h)

theorem strLess_trans (s t u : String) (h1 : strLess s t = true) (h2 : strLess t u = true) :
    strLess s u = true :=
  codesLess_trans _ _ _ h1 h2

theorem strLess_irrefl (s : String) : strLess s s = false := by
  cases h : strLess s s with
  | false => rfl
  | true => have := strLess_asymm s s h; rw [h] at this; exact Bool.noConfusion this

theorem Tag.Less_eq_false_iff (a b : Tag) :
    Tag.Less b a = false ↔
      strLess a.Key b.Key = true ∨ (a.Key = b.Key ∧ strLess b.Value a.Value = false) := by
  unfold Tag.Less
  by_cases hk : b.Key = a.Key
  · rw [if_pos hk]
    constructor
    · intro h
      exact Or.inr ⟨hk.symm, h⟩
    · rintro (h | ⟨_, h⟩)
      · rw [hk, strLess_irrefl] at h
        exact Bool.noConfusion h
      · exact h
  · rw [if_neg hk]
    constructor
    · intro h
      rcases strLess_trichotomy a.Key b.Key with h1 | h1 | h1
      · exact Or.inl h1
      · exact absurd h1.symm hk
      · rw [h] at h1
        exact Bool.noConfusion h1
    · rintro (h | ⟨h, _⟩)
      · exact strLess_asymm _ _ h
      · exact absurd h.symm hk

theorem Tag.le_total (a b : Tag) : Tag.Less b a = false ∨ Tag.Less a b = false := by
  rw [Tag.Less_eq_false_iff, Tag.Less_eq_false_iff]
  rcases strLess_trichotomy a.Key b.Key with h | h | h
  · exact Or.inl (Or.inl h)
  · cases hv : strLess b.Value a.Value with
    | false => exact Or.inl (Or.inr ⟨h, rfl⟩)
    | true => exact Or.inr (Or.inr ⟨h.symm, strLess_asymm _ _ hv⟩)
  · exact Or.inr (Or.inl h)

theorem Tag.le_trans (a b c : Tag) (h1 : Tag.Less b a = false) (h2 : Tag.Less c b = false) :
    Tag.Less c a = false := by
  rw [Tag.Less_eq_false_iff] at h1 h2 ⊢
  rcases h1 with h1 | ⟨k1, v1⟩
  · rcases h2 with h2 | ⟨k2, _⟩
    · exact Or.inl (strLess_trans _ _ _ h1 h2)
    · exact Or.inl (by rw [← k2]; exact h1)
  · rcases h2 with h2 | ⟨k2, v2⟩
    · exact Or.inl (by rw [k1]; exact h2)
    · refine Or.inr ⟨k1.trans k2, ?_⟩
      cases hv : strLess c.Value a.Value with
      | false => rfl
      | true =>
        rcases strLess_trichotomy a.Value b.Value with h | h | h
        · have := strLess_trans _ _ _ hv h
          rw [v2] at this
          exact Bool.noConfusion this
        · rw [h, v2] at hv
          exact Bool.noConfusion hv
        · rw [v1] at h
          exact Bool.noConfusion h

theorem Tag.le_iff_Less (ts : Tags) :
    List.Pairwise (fun a b : Tag =>
        strLess a.Key b.Key = true ∨ (a.Key = b.Key ∧ strLess b.Value a.Value = false)) ts
      ↔ List.Pairwise (fun a b : Tag => Tag.Less b a = false) ts := by
  constructor
  · exact List.Pairwise.imp (fun {a b} h => (Tag.Less_eq_false_iff a b).2 h)
  · exact List.Pairwise.imp (fun {a b} h => (Tag.Less_eq_false_iff a b).1 h)

theorem Tags.SortByKeyValue_sorted (ts : Tags) :
    List.Pairwise (fun a b => Tag.Less b a = false) (Tags.SortByKeyValue ts) := by
  haveI : IsTotal Tag (fun a b => Tag.Less b a = false) := ⟨Tag.le_total⟩
  haveI : IsTrans Tag (fun a b => Tag.Less b a = false) := ⟨Tag.le_trans⟩
  exact List.sorted_insertionSort (fun a b => Tag.Less b a = false) ts

/-- C15. For every list of tags, `SortByKeyValue` leaves a permutation of the
tags in which every tag comes before every tag of a greater key and, among the
tags of its own key, before none of a smaller value; a list already in this
order is left as it is, and sorting twice is sorting once. The two lists of the
test, highway before source and source before highway, both end with highway
before source. -/
theorem Tags.SortByKeyValue_sorts (ts : Tags) :
    (Tags.SortByKeyValue ts).Perm ts
    ∧ List.Pairwise (fun a b : Tag =>
        strLess a.Key b.Key = true ∨ (a.Key = b.Key ∧ strLess b.Value a.Value = false))
        (Tags.SortByKeyValue ts)
    ∧ (List.Pairwise (fun a b : Tag =>
        strLess a.Key b.Key = true ∨ (a.Key = b.Key ∧ strLess b.Value a.Value = false)) ts →
        Tags.SortByKeyValue ts = ts)
    ∧ Tags.SortByKeyValue (Tags.SortByKeyValue ts) = Tags.SortByKeyValue ts
    ∧ Tags.SortByKeyValue [{ Key := "highway", Value := "crossing" },
          { Key := "source", Value := "Bind" }]
        = [{ Key := "highway", Value := "crossing" }, { Key := "source", Value := "Bind" }]
    ∧ Tags.SortByKeyValue [{ Key := "source", Value := "Bind" },
          { Key := "highway", Value := "crossing" }]
        = [{ Key := "highway", Value := "crossing" }, { Key := "source", Value := "Bind" }] := by
  refine ⟨List.perm_insertionSort _ ts, ?_, ?_, ?_, by decide, by decide⟩
  · exact (Tag.le_iff_Less _).2 (Tags.SortByKeyValue_sorted ts)
  · intro h
    exact List.Sorted.insertionSort_eq ((Tag.le_iff_Less ts).1 h)
  · exact List.Sorted.insertionSort_eq (Tags.SortByKeyValue_sorted ts)

theorem Tags.SortByKeyValue_sorts_witness :
    List.Pairwise (fun a b : Tag =>
        strLess a.Key b.Key = true ∨ (a.Key = b.Key ∧ strLess b.Value a.Value = false))
      [{ Key := "highway 🏤 ", Value := "crossing" }, { Key := "source", Value := "Bind 🏤 " },
       { Key := "source", Value := "survey" }]
    ∧ Tags.SortByKeyValue
        [{ Key := "highway 🏤 ", Value := "crossing" }, { Key := "source", Value := "Bind 🏤 " },
         { Key := "source", Value := "survey" }]
      = [{ Key := "highway 🏤 ", Value := "crossing" }, { Key := "source", Value := "Bind 🏤 " },
         { Key := "source", Value := "survey" }] :=
  ⟨by decide, (Tags.SortByKeyValue_sorts
    [{ Key := "highway 🏤 ", Value := "crossing" }, { Key := "source", Value := "Bind 🏤 " },
     { Key := "source", Value := "survey" }]).2.2.1 (by decide)⟩

end TagTheorems

end Osm
